import Mathlib

/-!
Verification development for the `IsaItemModel` core of the qt_isa_gui widget library
(`source/qt_isa_gui/widgets/isa_item_model.{h,cpp}`).

The development shallowly embeds the instruction/label data model, the operand token
classifier (`ParseSelectableTokens`), the branch/label resolution pass
(`ClearBranchInstructionMapping` / `MapBlocksToBranchInstructions`), the line-number
flattening of `CacheSizeHints` together with `GetLineNumberModelIndex`, and the
out-of-range behaviour of `ColumnSizeHint`.  Machine reals (`qreal`) only carry layout
positions that no verified property inspects; they are embedded as exact rationals.
-/

set_option autoImplicit false

universe u

/-- Characters removed by IsaItemModel::TrimStr (the C++ string " \t\n\r\f\v"). -/
def kSpecialChars : List Char := [' ', '\t', '\n', '\r', Char.ofNat 12, Char.ofNat 11]

/-- Membership test for the TrimStr special characters. -/
def isTrimChar (c : Char) : Bool := kSpecialChars.contains c

/-- Embedding of IsaItemModel::TrimStr: erase trailing special characters, then leading ones. -/
def trimStr (l : List Char) : List Char :=
  ((l.reverse.dropWhile isTrimChar).reverse).dropWhile isTrimChar

/-- Embedding of IsaItemModel::Split specialised to the single-character delimiters the model
uses (" " and ":"): cut the string at every delimiter occurrence, keeping empty pieces, and
always emit the final remainder.  Trimming of the pieces is applied separately by splitTrim. -/
def splitChar (d : Char) : List Char → List (List Char)
  | [] => [[]]
  | c :: cs =>
    if c == d then [] :: splitChar d cs
    else
      match splitChar d cs with
      | r :: rs => (c :: r) :: rs
      | [] => [[c]]

/-- IsaItemModel::Split: every split piece is passed through TrimStr. -/
def splitTrim (d : Char) (l : List Char) : List (List Char) := (splitChar d l).map trimStr

/-- hasPre p l: p is a leading segment of l (substring test helper). -/
def hasPre : List Char → List Char → Bool
  | [], _ => true
  | _ :: _, [] => false
  | p :: ps, c :: cs => p == c && hasPre ps cs

/-- seqFind pat l: some suffix of l starts with pat. -/
def seqFind (pat : List Char) : List Char → Bool
  | [] => hasPre pat []
  | l@(_ :: cs) => hasPre pat l || seqFind pat cs

/-- Embedding of s.find(pat) != std::string::npos: pat occurs somewhere inside s. -/
def strFind (s pat : String) : Bool := seqFind pat.data s.data

/-- std::isdigit for the characters of isa text. -/
def isDigitChar (c : Char) : Bool := decide ('0' ≤ c) && decide (c ≤ '9')

/-- Numeric value of a digit character. -/
def digitVal (c : Char) : Nat := c.toNat - '0'.toNat

/-- Value of a digit string. -/
def digitsToNat (l : List Char) : Nat := l.foldl (fun a c => a * 10 + digitVal c) 0

/-- Embedding of std::stoi at the model's call sites, where the argument is guaranteed to start
with a digit: the value of the leading digit run. -/
def stoiLeading (l : List Char) : Nat := digitsToNat (l.takeWhile isDigitChar)

/-- Core of the single-register regular expressions: the register letter followed by one or more
digits (the "s[0-9]+" / "v[0-9]+" group). -/
def regCore (letter : Char) : List Char → Bool
  | c :: ds => c == letter && !ds.isEmpty && ds.all isDigitChar
  | [] => false

/-- Full-string matches of kScalarRegisterExpression / kVectorRegisterExpression
("(-?)(\x7c?)(s[0-9]+)(\2)"): an optional minus, then the register core optionally wrapped in a
matching pair of absolute-value bars. -/
def singleRegFull (letter : Char) (l : List Char) : Bool :=
  let l1 := match l with
    | c :: rest => if c == '-' then rest else c :: rest
    | [] => []
  match l1 with
  | c :: rest =>
    if c == '|' then
      match rest.getLast? with
      | some lastc => lastc == '|' && regCore letter rest.dropLast
      | none => false
    else regCore letter (c :: rest)
  | [] => false

/-- Full-string matches of the pair-start expressions: a literal opening square bracket, then a
single register, e.g. "[s0". -/
def pairStartFull (letter : Char) (l : List Char) : Bool :=
  match l with
  | c :: rest => c == '[' && singleRegFull letter rest
  | [] => false

/-- Full-string matches of the pair-end expressions: a single register, then a closing square
bracket, e.g. "s0]". -/
def pairEndFull (letter : Char) (l : List Char) : Bool :=
  match l.getLast? with
  | some c => c == ']' && singleRegFull letter l.dropLast
  | none => false

/-- Full-string matches of the register-range expressions, e.g. "s[0:1]": the letter, an opening
bracket, one or more digits, a colon, one or more digits, a closing bracket. -/
def rangeFull (letter : Char) (l : List Char) : Bool :=
  match l with
  | c0 :: c1 :: rest =>
    c0 == letter && c1 == '[' &&
    (match rest.getLast? with
     | some lastc =>
       lastc == ']' &&
       (let mid := rest.dropLast
        !(mid.takeWhile isDigitChar).isEmpty &&
        (match mid.dropWhile isDigitChar with
         | c2 :: ds2 => c2 == ':' && !ds2.isEmpty && ds2.all isDigitChar
         | [] => false))
     | none => false)
  | _ => false

/-- Full-span matches of kConstantExpression ("-?[0-9].*"): an optional minus, a digit, then any
characters; since the regex dot does not match a newline, the greedy match reaches the end of the
token exactly when no newline follows the first digit. -/
def constantFull (l : List Char) : Bool :=
  let l1 := match l with
    | c :: rest => if c == '-' then rest else c :: rest
    | [] => []
  match l1 with
  | c :: rest => isDigitChar c && rest.all (fun ch => ch != '\n')
  | [] => false

/-- IsaItemModel::TokenType. -/
inductive TokenType
  | kLabelType
  | kBranchLabelType
  | kScalarRegisterType
  | kVectorRegisterType
  | kConstantType
  | kTypeCount
deriving DecidableEq, Repr

/-- IsaItemModel::Token.  The qreal view positions are embedded as exact rationals. -/
structure Token where
  token_text : String
  type : TokenType
  start_register_index : Int
  end_register_index : Int
  x_position_start : Rat
  x_position_end : Rat
  is_selectable : Bool
deriving DecidableEq, Repr

/-- Token::Clear — the freshly constructed empty token. -/
def clearToken : Token :=
  { token_text := "", type := .kTypeCount, start_register_index := -1, end_register_index := -1,
    x_position_start := -1, x_position_end := -1, is_selectable := false }

/-- A child row of the model: IsaItemModel::CommentRow or IsaItemModel::InstructionRow. -/
inductive Row
  | comment (line_number : Nat) (text : String)
  | instruction (line_number : Nat) (op_code_token : Token)
      (operand_tokens : List (List Token)) (pc_address : String)
      (binary_representation : String) (enabled : Bool)
deriving DecidableEq, Repr

/-- Line number of a row (Row::line_number). -/
def Row.lineNumber : Row → Nat
  | .comment ln _ => ln
  | .instruction ln _ _ _ _ _ => ln

/-- A parent block of the model: IsaItemModel::CommentBlock or IsaItemModel::InstructionBlock. -/
inductive Block
  | commentBlock (position : Int) (line_number : Nat) (text : String)
      (instruction_lines : List Row)
  | instructionBlock (position : Int) (line_number : Nat) (token : Token)
      (instruction_lines : List Row)
      (mapped_branch_instructions : List (Nat × Nat))
deriving DecidableEq, Repr

/-- Block::instruction_lines. -/
def Block.instructionLines : Block → List Row
  | .commentBlock _ _ _ rows => rows
  | .instructionBlock _ _ _ rows _ => rows

/-- Whether a block has RowType::kCode. -/
def Block.isCode : Block → Bool
  | .commentBlock _ _ _ _ => false
  | .instructionBlock _ _ _ _ _ => true

/-- Block::position. -/
def Block.pos : Block → Int
  | .commentBlock p _ _ _ => p
  | .instructionBlock p _ _ _ _ => p

/-- InstructionBlock::mapped_branch_instructions (comment blocks have none). -/
def Block.mapped : Block → List (Nat × Nat)
  | .commentBlock _ _ _ _ => []
  | .instructionBlock _ _ _ _ m => m

/-- Label text of a code block (InstructionBlock::token.token_text). -/
def Block.labelText? : Block → Option String
  | .commentBlock _ _ _ _ => none
  | .instructionBlock _ _ tok _ _ => some tok.token_text

/-- IsaItemModel::kUnconditionalBranchString. -/
def kUnconditionalBranchString : String := "s_branch"

/-- IsaItemModel::kConditionalBranchString. -/
def kConditionalBranchString : String := "s_cbranch_"

/-- The branch test applied to opcode text in both ParseSelectableTokens and
MapBlocksToBranchInstructions: substring containment of either branch marker. -/
def isBranchOpcode (op : String) : Bool :=
  strFind op kUnconditionalBranchString || strFind op kConditionalBranchString

/-- Embedding of the non-branch arm of IsaItemModel::ParseSelectableTokens for one
whitespace-split sub-token: try single registers (plain form and the bracketed pair start / pair
end forms), then register ranges, then constants, in source order; a single-register match parses
the index after the register letter (failing silently into an unselectable token when no digit
follows), a range match parses the two bounds from inside the brackets.  View positions are
assigned afterwards by the layout walk. -/
def classifyNonBranchToken (token : String) : Token :=
  let l := token.data
  let is_scalar_register := singleRegFull 's' l || pairStartFull 's' l || pairEndFull 's' l
  let is_vector_register := singleRegFull 'v' l || pairStartFull 'v' l || pairEndFull 'v' l
  let is_scalar_register_range := rangeFull 's' l
  let is_vector_register_range := rangeFull 'v' l
  let is_constant := constantFull l
  let base : Token := { clearToken with token_text := token }
  let base :=
    if is_scalar_register || is_vector_register || is_scalar_register_range ||
        is_vector_register_range || is_constant then
      { base with is_selectable := true }
    else base
  if is_scalar_register || is_vector_register then
    let letter := if is_scalar_register then 's' else 'v'
    let register_string := match List.findIdx? (fun c => c == letter) l with
      | some i => l.drop (i + 1)
      | none => l
    match register_string with
    | c :: _ =>
      if isDigitChar c then
        { base with
          start_register_index := (stoiLeading register_string : Int),
          end_register_index := -1,
          type := if is_scalar_register then .kScalarRegisterType else .kVectorRegisterType }
      else { base with is_selectable := false, start_register_index := -1, end_register_index := -1 }
    | [] => { base with is_selectable := false, start_register_index := -1, end_register_index := -1 }
  else if is_scalar_register_range || is_vector_register_range then
    let base :=
      { base with
        type := if is_scalar_register_range then .kScalarRegisterType else .kVectorRegisterType }
    let register_range_string := (l.dropLast).drop 2
    match splitTrim ':' register_range_string with
    | a :: b :: _ =>
      { base with
        start_register_index := (stoiLeading a : Int),
        end_register_index := (stoiLeading b : Int) }
    | _ => base
  else if is_constant then
    { base with type := .kConstantType }
  else base

/-- One operand group of the hit-box layout walk of ParseSelectableTokens: assign each token its
x span and advance the running cursors, adding a single space width between tokens of the same
group; the returned rational triple carries the loop state (the C++ token_width, token_start_x and
token_end_x variables) into the next group. -/
def layoutLoop (w : Rat) : Rat → Rat → Rat → List Token → List Token × Rat × Rat × Rat
  | tw, sx, ex, [] => ([], tw, sx, ex)
  | _, sx, ex, [t] =>
    let tw' := w * (t.token_text.length : Rat)
    let ex' := ex + tw'
    ([{ t with x_position_start := sx, x_position_end := ex' }], tw', sx, ex')
  | _, sx, ex, t :: t2 :: rest =>
    let tw' := w * (t.token_text.length : Rat)
    let ex' := ex + tw'
    let t' := { t with x_position_start := sx, x_position_end := ex' }
    let out := layoutLoop w tw' (sx + tw' + w) (ex' + w) (t2 :: rest)
    (t' :: out.1, out.2)

/-- Operand processing of ParseSelectableTokens: split each operand on spaces, classify every
sub-token (a branch instruction forces the branch-label type on all of them), lay out the hit
boxes, and advance the cursors by the ", " delimiter width between operand groups. -/
def parseOperands (w : Rat) (is_branch_instruction : Bool) :
    Rat → Rat → Rat → List String → List (List Token)
  | _, _, _, [] => []
  | tw, sx, ex, operand :: rest =>
    let tokens := (splitTrim ' ' operand.data).map (fun tk =>
      if is_branch_instruction then
        { clearToken with token_text := String.mk tk, type := .kBranchLabelType }
      else classifyNonBranchToken (String.mk tk))
    let out := layoutLoop w tw sx ex tokens
    out.1 :: parseOperands w is_branch_instruction out.2.1
      (out.2.2.1 + out.2.1 + w * 2) (out.2.2.2 + w * 2) rest

/-- Embedding of IsaItemModel::ParseSelectableTokens.  The op-code string always becomes a single
selectable token indented by the five-character op-code column indent; its register indices stay
at the cleared value -1, which the function never assigns.  The second component is the operands'
token groups. -/
def parseSelectableTokens (op_code : String) (operands : List String) (w : Rat) :
    Token × List (List Token) :=
  let token_width := w * (op_code.length : Rat)
  let op_code_token : Token :=
    { token_text := op_code, type := .kTypeCount,
      start_register_index := -1, end_register_index := -1,
      x_position_start := w * 5, x_position_end := w * 5 + token_width,
      is_selectable := true }
  (op_code_token, parseOperands w (isBranchOpcode op_code) token_width 0 0 operands)

/-- Insert-with-overwrite: the std::unordered_map::operator[] assignment semantics used to build
code_block_label_to_index_ (a later insertion for the same label overwrites the earlier one). -/
def mapInsert (m : List (String × Int)) (k : String) (v : Int) : List (String × Int) :=
  if m.any (fun p => p.1 == k) then m.map (fun p => if p.1 == k then (k, v) else p)
  else m ++ [(k, v)]

/-- Lookup in the label map (std::unordered_map::find). -/
def mapFind (m : List (String × Int)) (k : String) : Option Int :=
  (m.find? (fun p => p.1 == k)).map (fun p => p.2)

/-- One step of the label-map construction: a code block inserts its label text, mapped to its
position field; a comment block contributes nothing. -/
def labelMapStep (m : List (String × Int)) (b : Block) : List (String × Int) :=
  match b with
  | .instructionBlock p _ tok _ _ => mapInsert m tok.token_text p
  | .commentBlock _ _ _ _ => m

/-- First loop of MapBlocksToBranchInstructions: map every code block's label text to that
block's position field, skipping comment blocks. -/
def buildLabelMap (bs : List Block) : List (String × Int) :=
  bs.foldl labelMapStep []

/-- Empty one code block's mapped_branch_instructions list (comment blocks are unchanged). -/
def Block.clearMapped : Block → Block
  | .instructionBlock p l tok rows _ => .instructionBlock p l tok rows []
  | .commentBlock p l t rows => .commentBlock p l t rows

/-- Embedding of IsaItemModel::ClearBranchInstructionMapping: empty every code block's
mapped_branch_instructions list. -/
def clearBranchInstructionMapping (bs : List Block) : List Block :=
  bs.map Block.clearMapped

/-- Modify the element at one position of a list, leaving the list unchanged when the position is
out of range. -/
def modifyIdx {α : Type u} (f : α → α) : Nat → List α → List α
  | _, [] => []
  | 0, a :: l => f a :: l
  | n + 1, a :: l => a :: modifyIdx f n l

/-- "Branch instruction remembers which code block is its target": store the resolved block index
in the start_register_index of the first token of the first operand group. -/
def setFirstTokenTarget (t : Int) : Row → Row
  | .instruction ln op ((tk0 :: tks) :: gs) pc bin en =>
    .instruction ln op (({ tk0 with start_register_index := t } :: tks) :: gs) pc bin en
  | r => r

/-- Modify row ii of a block's instruction lines. -/
def blockModifyRow (f : Row → Row) (ii : Nat) : Block → Block
  | .commentBlock p l t rows => .commentBlock p l t (modifyIdx f ii rows)
  | .instructionBlock p l tok rows m => .instructionBlock p l tok (modifyIdx f ii rows) m

/-- "Code block remembers which branch instruction targeted it": append one
(branching block, branching row) pair to a code block's mapped branch instructions. -/
def blockAppendMapped (pr : Nat × Nat) : Block → Block
  | .commentBlock p l t rows => .commentBlock p l t rows
  | .instructionBlock p l tok rows m => .instructionBlock p l tok rows (m ++ [pr])

/-- The two writes performed for one resolved branch, in source order: append the branching
(block, row) pair to the target block, then store the target index in the branch operand token.
A negative or out-of-range target position cannot occur for well-positioned documents (blocks_.at
would throw in the source otherwise). -/
def applyHit (bi ii : Nat) (t : Int) (bs : List Block) : List Block :=
  let bs1 := if 0 ≤ t then modifyIdx (blockAppendMapped (bi, ii)) t.toNat bs else bs
  modifyIdx (blockModifyRow (setFirstTokenTarget t) ii) bi bs1

/-- Look up row ii of block bi. -/
def getRow? (bs : List Block) (bi ii : Nat) : Option Row :=
  (bs.get? bi).bind (fun b => b.instructionLines.get? ii)

/-- The per-row branch decision of MapBlocksToBranchInstructions: an instruction row whose opcode
contains a branch marker and that has a first operand token is looked up in the label map by that
token's text; comment rows and non-branch instructions decide nothing. -/
def rowBranchTarget (lm : List (String × Int)) : Row → Option Int
  | .instruction _ op_code_token groups _ _ _ =>
    if isBranchOpcode op_code_token.token_text then
      match groups with
      | (tk0 :: _) :: _ => mapFind lm tk0.token_text
      | _ => none
    else none
  | .comment _ _ => none

/-- One iteration of the inner loop of MapBlocksToBranchInstructions, reading the row from the
current state: apply the two writes when the row is a resolved branch. -/
def processRow (lm : List (String × Int)) (bi ii : Nat) (bs : List Block) : List Block :=
  match (getRow? bs bi ii).bind (rowBranchTarget lm) with
  | some t => applyHit bi ii t bs
  | none => bs

/-- One iteration of the outer loop of MapBlocksToBranchInstructions: walk the rows of block bi
when it is a code block.  The loop bound is read when the block is entered; the writes of the pass
never change a block's row count, so this equals the source's per-iteration size() read. -/
def processBlock (lm : List (String × Int)) (bi : Nat) (bs : List Block) : List Block :=
  match bs.get? bi with
  | some b =>
    if b.isCode then
      (List.range b.instructionLines.length).foldl (fun s ii => processRow lm bi ii s) bs
    else bs
  | none => bs

/-- Embedding of IsaItemModel::MapBlocksToBranchInstructions: do nothing on an empty document,
otherwise clear the previous mapping, build the label map, and walk every row of every code block
linking branch instructions and their target blocks in both directions. -/
def mapBlocksToBranchInstructions (bs : List Block) : List Block :=
  if bs.isEmpty then bs
  else
    let cleared := clearBranchInstructionMapping bs
    let lm := buildLabelMap cleared
    (List.range cleared.length).foldl (fun s bi => processBlock lm bi s) cleared

/-- uint32_t(-1), the parent-row marker CacheSizeHints stores for block-header lines. -/
def kUInt32Max : Nat := 4294967295

/-- The line-number bookkeeping loop of IsaItemModel::CacheSizeHints, started at block index bi:
one (uint32_t(-1), block) entry per block header followed by one (block, row) entry per child
row. -/
def lineListAux : Nat → List Block → List (Nat × Nat)
  | _, [] => []
  | bi, b :: rest =>
    (kUInt32Max, bi) :: ((List.range b.instructionLines.length).map (fun ii => (bi, ii))) ++
      lineListAux (bi + 1) rest

/-- line_number_corresponding_indices_ as computed by CacheSizeHints. -/
def lineNumberCorrespondingIndices (bs : List Block) : List (Nat × Nat) := lineListAux 0 bs

/-- IsaItemModel::GetLineCount. -/
def getLineCount (bs : List Block) : Nat := (lineNumberCorrespondingIndices bs).length

/-- The shape of a QModelIndex produced by IsaItemModel::index at column 0: invalid, a top-level
block index (null internal pointer), or a child index whose internal pointer designates the parent
block by its position in blocks_. -/
inductive ModelIdx
  | invalid
  | top (row : Nat)
  | child (blockIdx : Nat) (row : Nat)
deriving DecidableEq, Repr

/-- IsaItemModel::rowCount: the block count at the root, a block's row count below a top-level
index, and zero below child rows. -/
def rowCountAt (bs : List Block) (parent : ModelIdx) : Nat :=
  match parent with
  | .invalid => bs.length
  | .top r =>
    match bs.get? r with
    | some b => b.instructionLines.length
    | none => 0
  | .child _ _ => 0

/-- IsaItemModel::index at column 0: hasIndex validates 0 ≤ row < rowCount(parent); a valid
top-level request carries no internal pointer, a valid child request points at
blocks_[parent.row()]. -/
def mkIndex (bs : List Block) (row : Int) (parent : ModelIdx) : ModelIdx :=
  if 0 ≤ row ∧ row < (rowCountAt bs parent : Int) then
    match parent with
    | .invalid => .top row.toNat
    | .top r => .child r row.toNat
    | .child _ _ => .invalid
  else .invalid

/-- Conversion of a stored uint32_t row value back to the int argument of index(): values below
2^31 are unchanged; the only larger value the model stores, uint32_t(-1), wraps back to -1. -/
def toInt32 (n : Nat) : Int := if n < 2 ^ 31 then (n : Int) else (n : Int) - 2 ^ 32

/-- Embedding of IsaItemModel::GetLineNumberModelIndex: negative or too-large line numbers give
the invalid index; otherwise the stored (parent, child) pair is replayed through index(), which
turns header entries into top-level indices and row entries into child indices. -/
def getLineNumberModelIndex (bs : List Block) (line_number : Int) : ModelIdx :=
  let lst := lineNumberCorrespondingIndices bs
  if line_number < 0 ∨ (lst.length : Int) ≤ line_number then .invalid
  else
    match lst.get? line_number.toNat with
    | some pr => mkIndex bs (toInt32 pr.2) (mkIndex bs (toInt32 pr.1) .invalid)
    | none => .invalid

/-- Join a list of strings with a separator (the text-building loops of data() and
CacheSizeHints). -/
def joinSep (sep : String) : List String → String
  | [] => ""
  | s :: rest => rest.foldl (fun acc x => acc ++ sep ++ x) s

/-- Display text of the operands column: sub-tokens of a group joined by the operand token space,
groups joined by the ", " operand delimiter. -/
def operandsDisplayText (groups : List (List Token)) : String :=
  joinSep ", " (groups.map (fun g => joinSep " " (g.map (fun tk => tk.token_text))))

/-- IsaItemModel::Columns::kColumnCount. -/
def kColumnCount : Nat := 5

/-- The column-width portion of IsaItemModel::CacheSizeHints: for each column the maximum text
length over instruction rows (the line-number column uses the digits of the last row's line
number), plus one padding character (plus the five-character indent for the op-code column),
scaled by the fixed character width and rounded up.  An empty document leaves every width zero. -/
def cacheColumnWidths (bs : List Block) (w : Rat) : List Nat :=
  if bs.isEmpty then [0, 0, 0, 0, 0]
  else
    let last_line_number :=
      match bs.getLast? with
      | some b =>
        match b.instructionLines.getLast? with
        | some r => r.lineNumber
        | none => 0
      | none => 0
    let instrRows := (bs.map (fun b => b.instructionLines.filterMap (fun r =>
      match r with
      | .instruction _ op groups pc bin _ => some (op, groups, pc, bin)
      | .comment _ _ => none))).flatten
    let max_op_code_length := (instrRows.map (fun x => x.1.token_text.length)).foldl max 0
    let max_pc_address_length := (instrRows.map (fun x => x.2.2.1.length)).foldl max 0
    let max_operand_length :=
      (instrRows.map (fun x => (operandsDisplayText x.2.1).length)).foldl max 0
    let max_binary_representation_length :=
      (instrRows.map (fun x => x.2.2.2.length)).foldl max 0
    [ ((((1 + (toString last_line_number).length : Nat) : Rat) * w).ceil).toNat,
      ((((max_pc_address_length + 1 : Nat) : Rat) * w).ceil).toNat,
      ((((max_op_code_length + 1 + 5 : Nat) : Rat) * w).ceil).toNat,
      ((((max_operand_length + 1 : Nat) : Rat) * w).ceil).toNat,
      ((((max_binary_representation_length + 1 : Nat) : Rat) * w).ceil).toNat ]

/-- Embedding of IsaItemModel::ColumnSizeHint: out-of-range column indices yield the zero size;
in-range ones yield the cached column width and the font height plus two. -/
def columnSizeHint (column_widths : List Nat) (font_height : Rat) (column_index : Int) :
    Rat × Rat :=
  if column_index < 0 ∨ (kColumnCount : Int) ≤ column_index then (0, 0)
  else ((column_widths.getD column_index.toNat 0 : Rat), font_height + 2)

/-- Embedding of the kBranchIndexRole arm of IsaItemModel::data for the operands column of an
instruction row: when the first token of the first operand group is a branch label with a resolved
target, answer that target's top-level index; otherwise answer the empty list. -/
def branchIndexRoleOperands (bs : List Block) (bi ii : Nat) : List ModelIdx :=
  match getRow? bs bi ii with
  | some (.instruction _ _ ((tk0 :: _) :: _) _ _ _) =>
    if tk0.type = TokenType.kBranchLabelType ∧ tk0.start_register_index ≠ -1 then
      [mkIndex bs tk0.start_register_index .invalid]
    else []
  | _ => []

/-- The data-model invariant stated by the specification: every code block's position field equals
its index in blocks_. -/
def wellPositioned (bs : List Block) : Bool :=
  (List.range bs.length).all (fun i =>
    match bs.get? i with
    | some b => !b.isCode || (b.pos == (i : Int))
    | none => true)

/-- Mapped branch instructions of the block at index j (empty for comment blocks and out-of-range
indices). -/
def getMapped (bs : List Block) (j : Nat) : List (Nat × Nat) :=
  match bs.get? j with
  | some b => b.mapped
  | none => []

/-- Whether the block at index j is a code block. -/
def isCodeAt (bs : List Block) (j : Nat) : Bool :=
  match bs.get? j with
  | some b => b.isCode
  | none => false

/-- The first token of the first operand group of the instruction row at (bi, ii), when present. -/
def getFirstOperandToken? (bs : List Block) (bi ii : Nat) : Option Token :=
  match getRow? bs bi ii with
  | some (.instruction _ _ ((tk0 :: _) :: _) _ _ _) => some tk0
  | _ => none

/-- The (block, row) iteration domain of the resolution pass: every row index of every code
block, in source order. -/
def pairList (bs : List Block) : List (Nat × Nat) :=
  (List.range bs.length).flatMap (fun bi =>
    match bs.get? bi with
    | some b =>
      if b.isCode then (List.range b.instructionLines.length).map (fun ii => (bi, ii)) else []
    | none => [])

/-- All resolved branches of a document in processing order, each with its target index. -/
def hits (lm : List (String × Int)) (bs : List Block) : List (Nat × Nat × Int) :=
  (pairList bs).filterMap (fun p =>
    ((getRow? bs p.1 p.2).bind (rowBranchTarget lm)).map (fun t => (p.1, p.2, t)))

/-- Apply the writes of a list of resolved branches in order. -/
def applyHits (hs : List (Nat × Nat × Int)) (bs : List Block) : List Block :=
  hs.foldl (fun s h => applyHit h.1 h.2.1 h.2.2 s) bs

/-- Replace the row at (bi, ii) with an inert comment row, keeping all indices stable (used to
state that an unresolved branch contributes nothing to the resolution pass). -/
def eraseRowToComment (bs : List Block) (bi ii : Nat) : List Block :=
  modifyIdx (blockModifyRow (fun _ => Row.comment 0 "") ii) bi bs

/-- One step of scanning for the last code block labelled k: a code block with label k replaces
the accumulator by its position, anything else keeps it. -/
def lastStep (k : String) (acc : Option Int) (b : Block) : Option Int :=
  match b with
  | .instructionBlock p _ tok _ _ => if tok.token_text == k then some p else acc
  | .commentBlock _ _ _ _ => acc

/-- The last code block (in document order) whose label text is k, reported by its position field:
the value the label map ends up associating with k. -/
def lastCodePos (bs : List Block) (k : String) : Option Int :=
  bs.foldl (lastStep k) none

/-- Whether the resolution pass treats a row as a branch candidate (the is_branch test of
MapBlocksToBranchInstructions). -/
def rowIsBranch : Row → Bool
  | .instruction _ op_code_token _ _ _ _ => isBranchOpcode op_code_token.token_text
  | .comment _ _ => false

/-- The classification-relevant fields of a token: text, type, register range, selectability
(everything except the view positions). -/
def tokFields (tk : Token) : String × TokenType × Int × Int × Bool :=
  (tk.token_text, tk.type, tk.start_register_index, tk.end_register_index, tk.is_selectable)

/-- Classification fields of the token at group gi, position ti of a parsed operand list. -/
def tokenFieldsAt (res : List (List Token)) (gi ti : Nat) :
    Option (String × TokenType × Int × Int × Bool) :=
  ((res.get? gi).bind (fun g => g.get? ti)).map tokFields

/-- The model index every line number of the flattened document decodes to: block headers become
top-level indices, child rows become child indices. -/
def flatAux : Nat → List Block → List ModelIdx
  | _, [] => []
  | bi, b :: rest =>
    ModelIdx.top bi ::
      ((List.range b.instructionLines.length).map (fun ii => ModelIdx.child bi ii)) ++
      flatAux (bi + 1) rest

/-- The expected image of GetLineNumberModelIndex over all line numbers of a document. -/
def flattenedIndices (bs : List Block) : List ModelIdx := flatAux 0 bs

/-- A model index designating an existing block header or an existing child row. -/
def validLineIdx (bs : List Block) : ModelIdx → Prop
  | .invalid => False
  | .top bi => bi < bs.length
  | .child bi ii => ∃ b, bs.get? bi = some b ∧ ii < b.instructionLines.length

/-- Lower bound on the block index a flattened model index refers to. -/
def aboveIdx (bi : Nat) : ModelIdx → Prop
  | .invalid => False
  | .top r => bi ≤ r
  | .child p _ => bi ≤ p

/-- Replay of one stored line pair through index(), as GetLineNumberModelIndex performs it. -/
def decodePair (bs : List Block) (pr : Nat × Nat) : ModelIdx :=
  mkIndex bs (toInt32 pr.2) (mkIndex bs (toInt32 pr.1) .invalid)

/-- Only the token write of a resolved branch (proof decomposition of applyHit). -/
def setOnly (h : Nat × Nat × Int) (s : List Block) : List Block :=
  modifyIdx (blockModifyRow (setFirstTokenTarget h.2.2) h.2.1) h.1 s

/-- Apply only the token writes of a list of resolved branches. -/
def applySets (hs : List (Nat × Nat × Int)) (s : List Block) : List Block :=
  hs.foldl (fun s h => setOnly h s) s

/-- The branch decision taken at (bi, ii) by the resolution pass reading state s. -/
def rowHitOf (lm : List (String × Int)) (s : List Block) (bi ii : Nat) : Option Int :=
  (getRow? s bi ii).bind (rowBranchTarget lm)

/-- The loop-relevant shape of the block at bi: whether it is a code block and its row count. -/
def blockMetaAt (s : List Block) (bi : Nat) : Option (Bool × Nat) :=
  (s.get? bi).map (fun b => (b.isCode, b.instructionLines.length))

/-- The resolved branches contributed by block bi (its rows in order, keeping the hits). -/
def blockHitList (lm : List (String × Int)) (bs : List Block) (bi : Nat) :
    List (Nat × Nat × Int) :=
  match bs.get? bi with
  | some b =>
    if b.isCode then
      (List.range b.instructionLines.length).filterMap (fun ii =>
        (rowHitOf lm bs bi ii).map (fun t => (bi, ii, t)))
    else []
  | none => []

/-- Label text of the block stored at index j, when that block exists and is a code block. -/
def labelTextAt? (bs : List Block) (j : Nat) : Option String :=
  (bs.get? j).bind Block.labelText?

/-- Whether the row at (bi, ii) exists and is a branch instruction. -/
def rowIsBranchAt (bs : List Block) (bi ii : Nat) : Bool :=
  ((getRow? bs bi ii).map rowIsBranch).getD false

/-- Text of the first token of the first operand group of the row at (bi, ii). -/
def firstOperandText? (bs : List Block) (bi ii : Nat) : Option String :=
  (getFirstOperandToken? bs bi ii).map Token.token_text

/-- start_register_index of the first token of the first operand group of the row at (bi, ii)
(the slot the resolution pass stores a branch target in). -/
def firstOperandTarget? (bs : List Block) (bi ii : Nat) : Option Int :=
  (getFirstOperandToken? bs bi ii).map Token.start_register_index

/-- A freshly parsed token carrying only its text (sample-document helper). -/
def mkTok (s : String) : Token := { clearToken with token_text := s }

/-- Sample document: code block "label0", then code block "label1" holding the single
instruction `s_branch label0`. -/
def c1Doc : List Block :=
  [ Block.instructionBlock 0 0 (mkTok "label0") [] [],
    Block.instructionBlock 1 1 (mkTok "label1")
      [Row.instruction 2 (mkTok "s_branch") [[mkTok "label0"]] "" "" true] [] ]

/-- Sample document: a comment block with two child rows followed by a code block with one
instruction row. -/
def c2Doc : List Block :=
  [ Block.commentBlock 0 0 "header" [Row.comment 1 "a", Row.comment 2 "b"],
    Block.instructionBlock 1 3 (mkTok "lab")
      [Row.instruction 4 (mkTok "v_mov") [] "" "" true] [] ]

/-- Sample document with a duplicated label: two code blocks both labelled "dup", then a code
block whose single instruction is `s_branch dup`. -/
def c7Doc : List Block :=
  [ Block.instructionBlock 0 0 (mkTok "dup") [] [],
    Block.instructionBlock 1 1 (mkTok "dup") [] [],
    Block.instructionBlock 2 2 (mkTok "main")
      [Row.instruction 3 (mkTok "s_branch") [[mkTok "dup"]] "" "" true] [] ]

/-- Sample document with an unresolvable branch: one code block whose single instruction is
`s_branch label_missing`, with no block labelled "label_missing". -/
def c8Doc : List Block :=
  [ Block.instructionBlock 0 0 (mkTok "lab")
      [Row.instruction 1 (mkTok "s_branch") [[mkTok "label_missing"]] "" "" true] [] ]

/-! ### List-surgery lemmas -/

theorem modifyIdx_nil {α : Type u} (f : α → α) (n : Nat) : modifyIdx f n [] = [] := by
  cases n <;> rfl

theorem modifyIdx_length {α : Type u} (f : α → α) (n : Nat) (l : List α) :
    (modifyIdx f n l).length = l.length := by
  induction l generalizing n with
  | nil => simp [modifyIdx_nil]
  | cons a l ih =>
    cases n with
    | zero => rfl
    | succ n => simp [modifyIdx, ih]

theorem get?_modifyIdx {α : Type u} (f : α → α) (n : Nat) (l : List α) (i : Nat) :
    (modifyIdx f n l).get? i = if i = n then (l.get? i).map f else l.get? i := by
  induction l generalizing n i with
  | nil => simp [modifyIdx]
  | cons a l ih =>
    cases n with
    | zero =>
      cases i with
      | zero => simp [modifyIdx]
      | succ i => simp [modifyIdx]
    | succ n =>
      cases i with
      | zero => simp [modifyIdx]
      | succ i => simpa [modifyIdx] using ih n i

theorem modifyIdx_congr {α : Type u} {f g : α → α} (h : ∀ a, f a = g a) (n : Nat)
    (l : List α) : modifyIdx f n l = modifyIdx g n l := by
  induction l generalizing n with
  | nil => simp [modifyIdx_nil]
  | cons a l ih =>
    cases n with
    | zero => simp [modifyIdx, h]
    | succ n => simp [modifyIdx, ih]

theorem modifyIdx_comp {α : Type u} (f g : α → α) (n : Nat) (l : List α) :
    modifyIdx f n (modifyIdx g n l) = modifyIdx (fun a => f (g a)) n l := by
  induction l generalizing n with
  | nil => simp [modifyIdx_nil]
  | cons a l ih =>
    cases n with
    | zero => rfl
    | succ n => simp [modifyIdx, ih]

theorem modifyIdx_comm_ne {α : Type u} (f g : α → α) {n m : Nat} (h : n ≠ m) (l : List α) :
    modifyIdx f n (modifyIdx g m l) = modifyIdx g m (modifyIdx f n l) := by
  induction l generalizing n m with
  | nil => simp [modifyIdx_nil]
  | cons a l ih =>
    cases n with
    | zero =>
      cases m with
      | zero => exact absurd rfl h
      | succ m => rfl
    | succ n =>
      cases m with
      | zero => rfl
      | succ m =>
        have h' : n ≠ m := by omega
        simp [modifyIdx, ih h']

theorem modifyIdx_comm_pt {α : Type u} {f g : α → α} (h : ∀ a, f (g a) = g (f a))
    (n m : Nat) (l : List α) :
    modifyIdx f n (modifyIdx g m l) = modifyIdx g m (modifyIdx f n l) := by
  by_cases hnm : n = m
  · subst hnm
    rw [modifyIdx_comp, modifyIdx_comp]
    exact modifyIdx_congr h n l
  · exact modifyIdx_comm_ne f g hnm l

theorem map_modifyIdx_absorb {α : Type u} {g f : α → α} (h : ∀ a, g (f a) = g a) (n : Nat)
    (l : List α) : (modifyIdx f n l).map g = l.map g := by
  induction l generalizing n with
  | nil => simp [modifyIdx_nil]
  | cons a l ih =>
    cases n with
    | zero => simp [modifyIdx, h]
    | succ n => simp [modifyIdx, ih]

theorem map_modifyIdx_comm {α : Type u} {g f f' : α → α} (h : ∀ a, g (f a) = f' (g a))
    (n : Nat) (l : List α) : (modifyIdx f n l).map g = modifyIdx f' n (l.map g) := by
  induction l generalizing n with
  | nil => simp [modifyIdx_nil]
  | cons a l ih =>
    cases n with
    | zero => simp [modifyIdx, h]
    | succ n => simp [modifyIdx, ih]

/-! ### Accessor lemmas for the block and row writes -/

theorem instructionLines_blockAppendMapped (pr : Nat × Nat) (b : Block) :
    (blockAppendMapped pr b).instructionLines = b.instructionLines := by
  cases b <;> rfl

theorem isCode_blockAppendMapped (pr : Nat × Nat) (b : Block) :
    (blockAppendMapped pr b).isCode = b.isCode := by
  cases b <;> rfl

theorem pos_blockAppendMapped (pr : Nat × Nat) (b : Block) :
    (blockAppendMapped pr b).pos = b.pos := by
  cases b <;> rfl

theorem labelText?_blockAppendMapped (pr : Nat × Nat) (b : Block) :
    (blockAppendMapped pr b).labelText? = b.labelText? := by
  cases b <;> rfl

theorem mapped_blockAppendMapped (pr : Nat × Nat) (b : Block) :
    (blockAppendMapped pr b).mapped = if b.isCode then b.mapped ++ [pr] else b.mapped := by
  cases b <;> rfl

theorem instructionLines_blockModifyRow (f : Row → Row) (ii : Nat) (b : Block) :
    (blockModifyRow f ii b).instructionLines = modifyIdx f ii b.instructionLines := by
  cases b <;> rfl

theorem isCode_blockModifyRow (f : Row → Row) (ii : Nat) (b : Block) :
    (blockModifyRow f ii b).isCode = b.isCode := by
  cases b <;> rfl

theorem pos_blockModifyRow (f : Row → Row) (ii : Nat) (b : Block) :
    (blockModifyRow f ii b).pos = b.pos := by
  cases b <;> rfl

theorem labelText?_blockModifyRow (f : Row → Row) (ii : Nat) (b : Block) :
    (blockModifyRow f ii b).labelText? = b.labelText? := by
  cases b <;> rfl

theorem mapped_blockModifyRow (f : Row → Row) (ii : Nat) (b : Block) :
    (blockModifyRow f ii b).mapped = b.mapped := by
  cases b <;> rfl

theorem instructionLines_clearMapped (b : Block) :
    b.clearMapped.instructionLines = b.instructionLines := by
  cases b <;> rfl

theorem isCode_clearMapped (b : Block) : b.clearMapped.isCode = b.isCode := by
  cases b <;> rfl

theorem pos_clearMapped (b : Block) : b.clearMapped.pos = b.pos := by
  cases b <;> rfl

theorem labelText?_clearMapped (b : Block) : b.clearMapped.labelText? = b.labelText? := by
  cases b <;> rfl

theorem mapped_clearMapped (b : Block) : b.clearMapped.mapped = [] := by
  cases b <;> rfl

theorem clearMapped_clearMapped (b : Block) : b.clearMapped.clearMapped = b.clearMapped := by
  cases b <;> rfl

theorem clearMapped_blockAppendMapped (pr : Nat × Nat) (b : Block) :
    (blockAppendMapped pr b).clearMapped = b.clearMapped := by
  cases b <;> rfl

theorem clearMapped_blockModifyRow (f : Row → Row) (ii : Nat) (b : Block) :
    (blockModifyRow f ii b).clearMapped = blockModifyRow f ii b.clearMapped := by
  cases b <;> rfl

theorem blockAppendMapped_blockModifyRow (pr : Nat × Nat) (f : Row → Row) (ii : Nat)
    (b : Block) : blockAppendMapped pr (blockModifyRow f ii b)
      = blockModifyRow f ii (blockAppendMapped pr b) := by
  cases b <;> rfl

theorem blockModifyRow_comp (f g : Row → Row) (ii : Nat) (b : Block) :
    blockModifyRow f ii (blockModifyRow g ii b) = blockModifyRow (fun r => f (g r)) ii b := by
  cases b <;> simp [blockModifyRow, modifyIdx_comp]

theorem blockModifyRow_comm_ne (f g : Row → Row) {ii jj : Nat} (h : ii ≠ jj) (b : Block) :
    blockModifyRow f ii (blockModifyRow g jj b) = blockModifyRow g jj (blockModifyRow f ii b) := by
  cases b <;> simp [blockModifyRow, modifyIdx_comm_ne f g h]

theorem setFirstTokenTarget_idem (t : Int) (r : Row) :
    setFirstTokenTarget t (setFirstTokenTarget t r) = setFirstTokenTarget t r := by
  cases r with
  | comment ln tx => rfl
  | instruction ln op groups pc bin en =>
    cases groups with
    | nil => rfl
    | cons g gs =>
      cases g with
      | nil => rfl
      | cons tk0 tks => rfl

theorem rowBranchTarget_setFirstTokenTarget (lm : List (String × Int)) (t : Int) (r : Row) :
    rowBranchTarget lm (setFirstTokenTarget t r) = rowBranchTarget lm r := by
  cases r with
  | comment ln tx => rfl
  | instruction ln op groups pc bin en =>
    cases groups with
    | nil => rfl
    | cons g gs =>
      cases g with
      | nil => rfl
      | cons tk0 tks => simp [setFirstTokenTarget, rowBranchTarget]

/-! ### Reads of the resolution state across the pass's writes -/

theorem getRow?_modifyIdx_append (pr : Nat × Nat) (j : Nat) (s : List Block) (bi ii : Nat) :
    getRow? (modifyIdx (blockAppendMapped pr) j s) bi ii = getRow? s bi ii := by
  unfold getRow?
  rw [get?_modifyIdx]
  by_cases h : bi = j
  · subst h
    cases s.get? bi with
    | none => simp
    | some b => simp [instructionLines_blockAppendMapped]
  · simp [h]

theorem getElem?_modifyIdx {α : Type u} (f : α → α) (n : Nat) (l : List α) (i : Nat) :
    (modifyIdx f n l)[i]? = if i = n then (l[i]?).map f else l[i]? := by
  simpa only [List.get?_eq_getElem?] using get?_modifyIdx f n l i

theorem getRow?_modifyIdx_modifyRow (f : Row → Row) (jj bj : Nat) (s : List Block)
    (bi ii : Nat) :
    getRow? (modifyIdx (blockModifyRow f jj) bj s) bi ii =
      if bi = bj ∧ ii = jj then (getRow? s bi ii).map f else getRow? s bi ii := by
  unfold getRow?
  rw [get?_modifyIdx]
  by_cases h : bi = bj
  · subst h
    cases hb : s.get? bi with
    | none => simp
    | some b =>
      by_cases hii : ii = jj
      · subst hii
        simp [instructionLines_blockModifyRow, getElem?_modifyIdx]
      · simp [hii, instructionLines_blockModifyRow, getElem?_modifyIdx]
  · simp [h]

theorem getRow?_applyHit (bj jj : Nat) (t : Int) (s : List Block) (bi ii : Nat) :
    getRow? (applyHit bj jj t s) bi ii =
      if bi = bj ∧ ii = jj then (getRow? s bi ii).map (setFirstTokenTarget t)
      else getRow? s bi ii := by
  simp only [applyHit]
  by_cases ht : 0 ≤ t
  · rw [if_pos ht, getRow?_modifyIdx_modifyRow, getRow?_modifyIdx_append]
  · rw [if_neg ht, getRow?_modifyIdx_modifyRow]

theorem blockMetaAt_modifyIdx (F : Block → Block)
    (hc : ∀ b, (F b).isCode = b.isCode)
    (hl : ∀ b, (F b).instructionLines.length = b.instructionLines.length)
    (j : Nat) (s : List Block) (bi : Nat) :
    blockMetaAt (modifyIdx F j s) bi = blockMetaAt s bi := by
  unfold blockMetaAt
  rw [get?_modifyIdx]
  by_cases h : bi = j
  · subst h
    cases s.get? bi with
    | none => simp
    | some b => simp [hc, hl]
  · simp [h]

theorem blockMetaAt_modifyRow (f : Row → Row) (jj bj : Nat) (s : List Block) (bi : Nat) :
    blockMetaAt (modifyIdx (blockModifyRow f jj) bj s) bi = blockMetaAt s bi :=
  blockMetaAt_modifyIdx _ (fun b => isCode_blockModifyRow f jj b)
    (fun b => by rw [instructionLines_blockModifyRow, modifyIdx_length]) bj s bi

theorem blockMetaAt_append (pr : Nat × Nat) (j : Nat) (s : List Block) (bi : Nat) :
    blockMetaAt (modifyIdx (blockAppendMapped pr) j s) bi = blockMetaAt s bi :=
  blockMetaAt_modifyIdx _ (fun b => isCode_blockAppendMapped pr b)
    (fun b => by rw [instructionLines_blockAppendMapped]) j s bi

theorem blockMetaAt_applyHit (bj jj : Nat) (t : Int) (s : List Block) (bi : Nat) :
    blockMetaAt (applyHit bj jj t s) bi = blockMetaAt s bi := by
  simp only [applyHit]
  by_cases ht : 0 ≤ t
  · rw [if_pos ht, blockMetaAt_modifyRow, blockMetaAt_append]
  · rw [if_neg ht, blockMetaAt_modifyRow]

theorem rowHitOf_applyHit (lm : List (String × Int)) (bj jj : Nat) (t : Int) (s : List Block)
    (bi ii : Nat) : rowHitOf lm (applyHit bj jj t s) bi ii = rowHitOf lm s bi ii := by
  unfold rowHitOf
  rw [getRow?_applyHit]
  by_cases h : bi = bj ∧ ii = jj
  · rw [if_pos h]
    cases getRow? s bi ii with
    | none => rfl
    | some r => simp [rowBranchTarget_setFirstTokenTarget]
  · rw [if_neg h]

theorem length_applyHit (bj jj : Nat) (t : Int) (s : List Block) :
    (applyHit bj jj t s).length = s.length := by
  simp only [applyHit]
  by_cases ht : 0 ≤ t
  · rw [if_pos ht, modifyIdx_length, modifyIdx_length]
  · rw [if_neg ht, modifyIdx_length]

theorem applyHits_nil (s : List Block) : applyHits [] s = s := rfl

theorem applyHits_cons (h : Nat × Nat × Int) (hs : List (Nat × Nat × Int)) (s : List Block) :
    applyHits (h :: hs) s = applyHits hs (applyHit h.1 h.2.1 h.2.2 s) := rfl

theorem applyHits_append (h1 h2 : List (Nat × Nat × Int)) (s : List Block) :
    applyHits (h1 ++ h2) s = applyHits h2 (applyHits h1 s) := by
  unfold applyHits
  rw [List.foldl_append]

theorem length_applyHits (hs : List (Nat × Nat × Int)) (s : List Block) :
    (applyHits hs s).length = s.length := by
  induction hs generalizing s with
  | nil => rfl
  | cons h hs ih => rw [applyHits_cons, ih, length_applyHit]

theorem rowHitOf_applyHits (lm : List (String × Int)) (hs : List (Nat × Nat × Int))
    (s : List Block) (bi ii : Nat) :
    rowHitOf lm (applyHits hs s) bi ii = rowHitOf lm s bi ii := by
  induction hs generalizing s with
  | nil => rfl
  | cons h hs ih => rw [applyHits_cons, ih, rowHitOf_applyHit]

theorem blockMetaAt_applyHits (hs : List (Nat × Nat × Int)) (s : List Block) (bi : Nat) :
    blockMetaAt (applyHits hs s) bi = blockMetaAt s bi := by
  induction hs generalizing s with
  | nil => rfl
  | cons h hs ih => rw [applyHits_cons, ih, blockMetaAt_applyHit]

/-! ### The threaded resolution loop equals replaying the precomputed hit list -/

theorem foldl_processRow_eq (lm : List (String × Int)) (bs0 : List Block) (bi : Nat)
    (I : List Nat) :
    ∀ (s : List Block), (∀ bj jj, rowHitOf lm s bj jj = rowHitOf lm bs0 bj jj) →
      I.foldl (fun s2 ii => processRow lm bi ii s2) s =
        applyHits (I.filterMap (fun ii =>
          (rowHitOf lm bs0 bi ii).map (fun t => (bi, ii, t)))) s := by
  induction I with
  | nil => intro s _; rfl
  | cons ii I ih =>
    intro s hinv
    rw [List.foldl_cons]
    cases hh : rowHitOf lm bs0 bi ii with
    | none =>
      have hstep : processRow lm bi ii s = s := by
        unfold processRow
        have hv := hinv bi ii
        have hh' := hh
        unfold rowHitOf at hv hh'
        rw [hv, hh']
      rw [hstep, List.filterMap_cons_none]
      · exact ih s hinv
      · rw [hh]; rfl
    | some t =>
      have hstep : processRow lm bi ii s = applyHit bi ii t s := by
        unfold processRow
        have hv := hinv bi ii
        have hh' := hh
        unfold rowHitOf at hv hh'
        rw [hv, hh']
      rw [hstep, List.filterMap_cons_some (b := (bi, ii, t))]
      · rw [applyHits_cons]
        exact ih (applyHit bi ii t s) (fun bj jj => by rw [rowHitOf_applyHit, hinv])
      · rw [hh]; rfl

theorem foldl_processBlock_eq (lm : List (String × Int)) (bs0 : List Block) (L : List Nat) :
    ∀ (s : List Block), (∀ bj jj, rowHitOf lm s bj jj = rowHitOf lm bs0 bj jj) →
      (∀ bj, blockMetaAt s bj = blockMetaAt bs0 bj) →
      L.foldl (fun s2 bi => processBlock lm bi s2) s =
        applyHits (L.flatMap (blockHitList lm bs0)) s := by
  induction L with
  | nil => intro s _ _; rfl
  | cons bi L ih =>
    intro s hrow hmeta
    rw [List.foldl_cons, List.flatMap_cons, applyHits_append]
    have hm := hmeta bi
    cases hb0 : bs0.get? bi with
    | none =>
      have hsnone : s.get? bi = none := by
        have : blockMetaAt s bi = none := by
          rw [hm]; unfold blockMetaAt; rw [hb0]; rfl
        unfold blockMetaAt at this
        exact Option.map_eq_none.mp this
      have hstep : processBlock lm bi s = s := by
        unfold processBlock
        rw [hsnone]
      have hbh : blockHitList lm bs0 bi = [] := by
        unfold blockHitList
        rw [hb0]
      rw [hstep, hbh, applyHits_nil]
      exact ih s hrow hmeta
    | some b0 =>
      have hsome : ∃ b, s.get? bi = some b ∧
          b.isCode = b0.isCode ∧ b.instructionLines.length = b0.instructionLines.length := by
        have : blockMetaAt s bi = some (b0.isCode, b0.instructionLines.length) := by
          rw [hm]; unfold blockMetaAt; rw [hb0]; rfl
        unfold blockMetaAt at this
        rcases Option.map_eq_some'.mp this with ⟨b, hb, hv⟩
        exact ⟨b, hb, congrArg Prod.fst hv, congrArg Prod.snd hv⟩
      rcases hsome with ⟨b, hb, hbc, hblen⟩
      cases hcode : b0.isCode with
      | false =>
        have hstep : processBlock lm bi s = s := by
          simp only [processBlock, hb]
          rw [hbc, hcode]
          simp
        have hbh : blockHitList lm bs0 bi = [] := by
          simp only [blockHitList, hb0]
          rw [hcode]
          simp
        rw [hstep, hbh, applyHits_nil]
        exact ih s hrow hmeta
      | true =>
        have hstep : processBlock lm bi s =
            (List.range b0.instructionLines.length).foldl
              (fun s2 ii => processRow lm bi ii s2) s := by
          simp only [processBlock, hb]
          rw [hbc, hcode, hblen]
          simp
        have hbh : blockHitList lm bs0 bi =
            (List.range b0.instructionLines.length).filterMap (fun ii =>
              (rowHitOf lm bs0 bi ii).map (fun t => (bi, ii, t))) := by
          simp only [blockHitList, hb0]
          rw [hcode]
          simp
        rw [hstep, hbh, foldl_processRow_eq lm bs0 bi _ s hrow]
        exact ih _
          (fun bj jj => by rw [rowHitOf_applyHits, hrow])
          (fun bj => by rw [blockMetaAt_applyHits, hmeta])

/-! ### The hit list of a document -/

theorem hits_eq_flatMap (lm : List (String × Int)) (bs : List Block) :
    hits lm bs = (List.range bs.length).flatMap (blockHitList lm bs) := by
  unfold hits pairList
  rw [List.filterMap_flatMap]
  congr 1
  funext bi
  cases hb : bs.get? bi with
  | none =>
    have h1 : blockHitList lm bs bi = [] := by
      unfold blockHitList
      rw [hb]
    rw [h1]
    rfl
  | some b =>
    have h2 : blockHitList lm bs bi =
        (if b.isCode then
          (List.range b.instructionLines.length).filterMap (fun ii =>
            (rowHitOf lm bs bi ii).map (fun t => (bi, ii, t)))
         else []) := by
      unfold blockHitList
      rw [hb]
    have h3 : (match (some b : Option Block) with
        | some b =>
          if b.isCode then (List.range b.instructionLines.length).map (fun ii => (bi, ii))
          else []
        | none => ([] : List (Nat × Nat))) =
        (if b.isCode then (List.range b.instructionLines.length).map (fun ii => (bi, ii))
         else []) := rfl
    rw [h2, h3]
    by_cases hc : b.isCode
    · rw [if_pos hc, if_pos hc, List.filterMap_map]
      rfl
    · rw [if_neg hc, if_neg hc]
      rfl

theorem mapBlocks_eq_applyHits (bs : List Block) (h : bs ≠ []) :
    mapBlocksToBranchInstructions bs =
      applyHits
        (hits (buildLabelMap (clearBranchInstructionMapping bs))
          (clearBranchInstructionMapping bs))
        (clearBranchInstructionMapping bs) := by
  have hne : bs.isEmpty = false := by
    cases bs with
    | nil => exact absurd rfl h
    | cons a l => rfl
  unfold mapBlocksToBranchInstructions
  rw [if_neg (show ¬bs.isEmpty = true by rw [hne]; exact Bool.false_ne_true)]
  rw [foldl_processBlock_eq _ (clearBranchInstructionMapping bs) _
      (clearBranchInstructionMapping bs) (fun _ _ => rfl) (fun _ => rfl)]
  rw [← hits_eq_flatMap]

/-! ### What the writes do to the mapped branch lists and the rows -/

theorem getMapped_modifyRow (f : Row → Row) (jj bj : Nat) (s : List Block) (j : Nat) :
    getMapped (modifyIdx (blockModifyRow f jj) bj s) j = getMapped s j := by
  unfold getMapped
  rw [get?_modifyIdx]
  by_cases h : j = bj
  · subst h
    cases s.get? j with
    | none => simp
    | some b => simp [mapped_blockModifyRow]
  · simp [h]

theorem isCodeAt_modifyIdx (F : Block → Block) (hc : ∀ b, (F b).isCode = b.isCode)
    (k : Nat) (s : List Block) (j : Nat) : isCodeAt (modifyIdx F k s) j = isCodeAt s j := by
  unfold isCodeAt
  rw [get?_modifyIdx]
  by_cases h : j = k
  · subst h
    cases s.get? j with
    | none => simp
    | some b => simp [hc]
  · simp [h]

theorem isCodeAt_applyHit (bi ii : Nat) (t : Int) (s : List Block) (j : Nat) :
    isCodeAt (applyHit bi ii t s) j = isCodeAt s j := by
  simp only [applyHit]
  by_cases ht : 0 ≤ t
  · rw [if_pos ht, isCodeAt_modifyIdx _ (fun b => isCode_blockModifyRow _ _ b),
      isCodeAt_modifyIdx _ (fun b => isCode_blockAppendMapped _ b)]
  · rw [if_neg ht, isCodeAt_modifyIdx _ (fun b => isCode_blockModifyRow _ _ b)]

theorem getMapped_applyHit (bi ii : Nat) (t : Int) (s : List Block) (j : Nat) :
    getMapped (applyHit bi ii t s) j =
      if (j : Int) = t ∧ isCodeAt s j then getMapped s j ++ [(bi, ii)]
      else getMapped s j := by
  simp only [applyHit]
  by_cases ht : 0 ≤ t
  · rw [if_pos ht, getMapped_modifyRow]
    by_cases hj : j = t.toNat
    · have hjt : (j : Int) = t := by omega
      cases hsj : s.get? j with
      | none =>
        have h1 : getMapped (modifyIdx (blockAppendMapped (bi, ii)) t.toNat s) j = [] := by
          unfold getMapped
          rw [get?_modifyIdx, if_pos hj, hsj]
          rfl
        have h2 : getMapped s j = [] := by
          unfold getMapped
          rw [hsj]
        have h3 : isCodeAt s j = false := by
          unfold isCodeAt
          rw [hsj]
        rw [h1, h2, h3]
        simp
      | some b =>
        have h1 : getMapped (modifyIdx (blockAppendMapped (bi, ii)) t.toNat s) j
            = (blockAppendMapped (bi, ii) b).mapped := by
          unfold getMapped
          rw [get?_modifyIdx, if_pos hj, hsj]
          rfl
        have h2 : getMapped s j = b.mapped := by
          unfold getMapped
          rw [hsj]
        have h3 : isCodeAt s j = b.isCode := by
          unfold isCodeAt
          rw [hsj]
        rw [h1, h2, h3, mapped_blockAppendMapped]
        cases hbc : b.isCode with
        | true => simp [hjt]
        | false => simp [hjt]
    · have hjt : ¬((j : Int) = t) := by omega
      have h1 : getMapped (modifyIdx (blockAppendMapped (bi, ii)) t.toNat s) j
          = getMapped s j := by
        unfold getMapped
        rw [get?_modifyIdx, if_neg hj]
      rw [h1]
      simp [hjt]
  · rw [if_neg ht, getMapped_modifyRow]
    have hjt : ¬((j : Int) = t) := by omega
    simp [hjt]

theorem getMapped_applyHits (hs : List (Nat × Nat × Int)) (s : List Block) (j : Nat) :
    getMapped (applyHits hs s) j =
      getMapped s j ++
        (if isCodeAt s j then
          (hs.filter (fun h => decide ((j : Int) = h.2.2))).map (fun h => (h.1, h.2.1))
        else []) := by
  induction hs generalizing s with
  | nil => simp [applyHits_nil]
  | cons hd hs ih =>
    rw [applyHits_cons, ih, isCodeAt_applyHit, getMapped_applyHit]
    by_cases hc : isCodeAt s j
    · by_cases hj : (j : Int) = hd.2.2
      · simp [hc, hj, List.filter_cons]
      · simp [hc, hj, List.filter_cons]
    · simp [hc]

theorem getRow?_applyHits_notMem (hs : List (Nat × Nat × Int)) (s : List Block) (bi ii : Nat)
    (h : ∀ t, (bi, ii, t) ∉ hs) :
    getRow? (applyHits hs s) bi ii = getRow? s bi ii := by
  induction hs generalizing s with
  | nil => rfl
  | cons hd hs ih =>
    have hne : ¬(bi = hd.1 ∧ ii = hd.2.1) := by
      rintro ⟨rfl, rfl⟩
      exact h hd.2.2 (List.mem_cons_self hd hs)
    rw [applyHits_cons, ih _ (fun t ht => h t (List.mem_cons_of_mem _ ht)),
      getRow?_applyHit, if_neg hne]

theorem getRow?_applyHits_mem (hs : List (Nat × Nat × Int)) (s : List Block) (bi ii : Nat)
    (t : Int) (hnd : (hs.map (fun h => (h.1, h.2.1))).Nodup) (hmem : (bi, ii, t) ∈ hs) :
    getRow? (applyHits hs s) bi ii = (getRow? s bi ii).map (setFirstTokenTarget t) := by
  induction hs generalizing s with
  | nil => exact absurd hmem (List.not_mem_nil _)
  | cons hd hs ih =>
    rw [List.map_cons, List.nodup_cons] at hnd
    rw [applyHits_cons]
    rcases List.mem_cons.mp hmem with heq | hmem'
    · have hnot : ∀ t', (bi, ii, t') ∉ hs := by
        intro t' ht'
        apply hnd.1
        rw [← heq]
        have hmm := List.mem_map_of_mem (fun h => (h.1, h.2.1)) ht'
        exact hmm
      rw [getRow?_applyHits_notMem hs _ bi ii hnot, ← heq, getRow?_applyHit,
        if_pos ⟨rfl, rfl⟩]
    · have hpair : ¬(bi = hd.1 ∧ ii = hd.2.1) := by
        rintro ⟨rfl, rfl⟩
        have hmm := List.mem_map_of_mem (fun h => (h.1, h.2.1)) hmem'
        exact hnd.1 hmm
      rw [ih _ hnd.2 hmem', getRow?_applyHit, if_neg hpair]

/-! ### The hit pairs are the iteration pairs that resolved, hence distinct -/

theorem filterMap_hits_pairs (lm : List (String × Int)) (bs : List Block)
    (l : List (Nat × Nat)) :
    ((l.filterMap (fun p =>
        ((getRow? bs p.1 p.2).bind (rowBranchTarget lm)).map (fun t => (p.1, p.2, t)))).map
      (fun h => (h.1, h.2.1))) =
      l.filter (fun p => ((getRow? bs p.1 p.2).bind (rowBranchTarget lm)).isSome) := by
  induction l with
  | nil => rfl
  | cons p l ih =>
    rw [List.filterMap_cons, List.filter_cons]
    cases hp : (getRow? bs p.1 p.2).bind (rowBranchTarget lm) with
    | none => simpa [hp] using ih
    | some t => simpa [hp] using ih

theorem pairList_first_eq (bs : List Block) (bi : Nat) (x : Nat × Nat)
    (hx : x ∈ (match bs.get? bi with
      | some b =>
        if b.isCode then (List.range b.instructionLines.length).map (fun ii => (bi, ii))
        else []
      | none => ([] : List (Nat × Nat)))) : x.1 = bi := by
  cases hb : bs.get? bi with
  | none =>
    rw [hb] at hx
    exact absurd hx (List.not_mem_nil x)
  | some b =>
    rw [hb] at hx
    have hx' : x ∈ (if b.isCode then
        (List.range b.instructionLines.length).map (fun ii => (bi, ii))
      else ([] : List (Nat × Nat))) := hx
    by_cases hc : b.isCode
    · rw [if_pos hc] at hx'
      rcases List.mem_map.mp hx' with ⟨ii, _, rfl⟩
      rfl
    · rw [if_neg hc] at hx'
      exact absurd hx' (List.not_mem_nil x)

theorem pairList_nodup (bs : List Block) : (pairList bs).Nodup := by
  unfold pairList
  rw [List.nodup_flatMap]
  constructor
  · intro bi _
    cases hb : bs.get? bi with
    | none => simp
    | some b =>
      by_cases hc : b.isCode
      · simp only [hb, hc, if_true]
        exact List.Nodup.map (fun a b' hab => by simpa using hab) (List.nodup_range _)
      · simp [hb, hc]
  · have hnd := List.nodup_range bs.length
    refine List.Pairwise.imp ?_ hnd
    intro bi bj hne x hxi hxj
    have h1 := pairList_first_eq bs bi x hxi
    have h2 := pairList_first_eq bs bj x hxj
    exact hne (h1 ▸ h2 ▸ rfl)

theorem hits_pairs_nodup (lm : List (String × Int)) (bs : List Block) :
    ((hits lm bs).map (fun h => (h.1, h.2.1))).Nodup := by
  unfold hits
  rw [filterMap_hits_pairs]
  exact List.Nodup.filter _ (pairList_nodup bs)

theorem hits_pair_isSome (lm : List (String × Int)) (bs : List Block) (bi ii : Nat) (t : Int)
    (h : (bi, ii, t) ∈ hits lm bs) : rowHitOf lm bs bi ii = some t := by
  unfold hits at h
  rcases List.mem_filterMap.mp h with ⟨p, _, hp⟩
  rcases Option.map_eq_some'.mp hp with ⟨t', ht', hv⟩
  cases hv
  exact ht'

theorem hits_mem_of_rowHit (lm : List (String × Int)) (bs : List Block) (bi ii : Nat) (t : Int)
    (hbi : bi < bs.length) (hcode : isCodeAt bs bi = true)
    (hii : ∃ b, bs.get? bi = some b ∧ ii < b.instructionLines.length)
    (hrow : rowHitOf lm bs bi ii = some t) : (bi, ii, t) ∈ hits lm bs := by
  unfold hits
  apply List.mem_filterMap.mpr
  refine ⟨(bi, ii), ?_, ?_⟩
  · unfold pairList
    apply List.mem_flatMap.mpr
    refine ⟨bi, List.mem_range.mpr hbi, ?_⟩
    rcases hii with ⟨b, hb, hlen⟩
    unfold isCodeAt at hcode
    rw [hb] at hcode ⊢
    have hcode' : b.isCode = true := hcode
    show (bi, ii) ∈ (if b.isCode then
      (List.range b.instructionLines.length).map (fun ii => (bi, ii))
    else ([] : List (Nat × Nat)))
    rw [if_pos hcode']
    exact List.mem_map.mpr ⟨ii, List.mem_range.mpr hlen, rfl⟩
  · unfold rowHitOf at hrow
    rw [hrow]
    rfl

theorem hits_notMem_of_rowHit_none (lm : List (String × Int)) (bs : List Block) (bi ii : Nat)
    (hrow : rowHitOf lm bs bi ii = none) : ∀ t, (bi, ii, t) ∉ hits lm bs := by
  intro t ht
  have := hits_pair_isSome lm bs bi ii t ht
  rw [hrow] at this
  exact Option.noConfusion this

/-! ### The label map: insertion overwrites, lookup finds the last inserted value -/

theorem mapFind_cons_of_pos (p : String × Int) (m : List (String × Int)) (k : String)
    (h : (p.1 == k) = true) : mapFind (p :: m) k = some p.2 := by
  unfold mapFind
  rw [List.find?_cons, h]
  rfl

theorem mapFind_cons_of_neg (p : String × Int) (m : List (String × Int)) (k : String)
    (h : ¬(p.1 == k) = true) : mapFind (p :: m) k = mapFind m k := by
  have h' : (p.1 == k) = false := by
    cases hb : (p.1 == k) with
    | true => exact absurd hb h
    | false => rfl
  unfold mapFind
  rw [List.find?_cons, h']

theorem mapFind_subst (m : List (String × Int)) (k : String) (v : Int) (k' : String) :
    mapFind (m.map (fun p => if p.1 == k then (k, v) else p)) k' =
      if k' = k then (mapFind m k).map (fun _ => v) else mapFind m k' := by
  induction m with
  | nil => by_cases hk : k' = k <;> simp [mapFind, hk]
  | cons p m ih =>
    rw [List.map_cons]
    by_cases hpk : (p.1 == k) = true
    · rw [if_pos hpk]
      by_cases hk : k' = k
      · subst hk
        rw [mapFind_cons_of_pos _ _ _ (show ((k', v).1 == k') = true from by simp),
          mapFind_cons_of_pos _ _ _ hpk, if_pos rfl]
        rfl
      · rw [mapFind_cons_of_neg _ _ _ (show ¬((k, v).1 == k') = true from by
            simpa using fun h => hk h.symm), ih, if_neg hk, if_neg hk,
          mapFind_cons_of_neg _ _ _ (show ¬(p.1 == k') = true from by
            simp only [beq_iff_eq] at hpk ⊢
            rw [hpk]
            exact fun h => hk h.symm)]
    · rw [if_neg hpk]
      by_cases hk' : (p.1 == k') = true
      · have hkk : ¬(k' = k) := by
          intro h
          subst h
          exact hpk hk'
        rw [mapFind_cons_of_pos _ _ _ hk', if_neg hkk, mapFind_cons_of_pos _ _ _ hk']
      · rw [mapFind_cons_of_neg _ _ _ hk', ih, mapFind_cons_of_neg _ _ _ hpk,
          mapFind_cons_of_neg _ _ _ hk']

theorem mapFind_isSome_of_any (m : List (String × Int)) (k : String)
    (h : m.any (fun p => p.1 == k) = true) : ∃ v0, mapFind m k = some v0 := by
  induction m with
  | nil => simp at h
  | cons p m ih =>
    by_cases hpk : (p.1 == k) = true
    · exact ⟨p.2, mapFind_cons_of_pos _ _ _ hpk⟩
    · have h1 : (p.1 == k) = false := by
        cases h2 : (p.1 == k) with
        | true => exact absurd h2 hpk
        | false => rfl
      simp only [List.any_cons, h1, Bool.false_or] at h
      rcases ih h with ⟨v0, hv0⟩
      exact ⟨v0, by rw [mapFind_cons_of_neg _ _ _ hpk]; exact hv0⟩

theorem mapFind_mapInsert (m : List (String × Int)) (k : String) (v : Int) (k' : String) :
    mapFind (mapInsert m k v) k' = if k' = k then some v else mapFind m k' := by
  unfold mapInsert
  by_cases hany : m.any (fun p => p.1 == k) = true
  · rw [if_pos hany, mapFind_subst]
    by_cases hk : k' = k
    · rcases mapFind_isSome_of_any m k hany with ⟨v0, hv0⟩
      rw [if_pos hk, if_pos hk, hv0]
      rfl
    · rw [if_neg hk, if_neg hk]
  · rw [if_neg hany]
    have hnone : mapFind m k = none := by
      unfold mapFind
      rw [List.find?_eq_none.mpr]
      · rfl
      · intro p hp hpk
        exact hany (List.any_eq_true.mpr ⟨p, hp, hpk⟩)
    by_cases hk : k' = k
    · subst hk
      unfold mapFind
      rw [List.find?_append]
      have h1 : m.find? (fun p => p.1 == k') = none := by
        have h2 := hnone
        unfold mapFind at h2
        cases hf : m.find? (fun p => p.1 == k') with
        | none => rfl
        | some p => rw [hf] at h2; exact Option.noConfusion h2
      rw [h1, Option.none_or, List.find?_cons,
        (show ((k', v).1 == k') = true from by simp), if_pos rfl]
      rfl
    · unfold mapFind
      rw [List.find?_append]
      have h2 : List.find? (fun p => p.1 == k') [(k, v)] = none := by
        rw [List.find?_eq_none.mpr]
        intro p hp hpk
        rcases List.mem_singleton.mp hp with rfl
        have hkk' : k = k' := by simpa using hpk
        exact hk hkk'.symm
      rw [h2, Option.or_none, if_neg hk]

/-! ### buildLabelMap answers the position of the last code block with a given label -/

theorem labelMapStep_code (m : List (String × Int)) (p : Int) (l : Nat) (tok : Token)
    (rows : List Row) (mp : List (Nat × Nat)) :
    labelMapStep m (Block.instructionBlock p l tok rows mp) = mapInsert m tok.token_text p := rfl

theorem labelMapStep_comment (m : List (String × Int)) (p : Int) (l : Nat) (t : String)
    (rows : List Row) : labelMapStep m (Block.commentBlock p l t rows) = m := rfl

theorem lastStep_code (k : String) (acc : Option Int) (p : Int) (l : Nat) (tok : Token)
    (rows : List Row) (mp : List (Nat × Nat)) :
    lastStep k acc (Block.instructionBlock p l tok rows mp) =
      if tok.token_text == k then some p else acc := rfl

theorem lastStep_comment (k : String) (acc : Option Int) (p : Int) (l : Nat) (t : String)
    (rows : List Row) : lastStep k acc (Block.commentBlock p l t rows) = acc := rfl

theorem labelStep_fold (bs : List Block) :
    ∀ (m : List (String × Int)) (k : String),
      mapFind (bs.foldl labelMapStep m) k = bs.foldl (lastStep k) (mapFind m k) := by
  induction bs with
  | nil => intro m k; rfl
  | cons b bs ih =>
    intro m k
    rw [List.foldl_cons, List.foldl_cons]
    cases b with
    | commentBlock p l t rows =>
      rw [labelMapStep_comment, lastStep_comment]
      exact ih m k
    | instructionBlock p l tok rows mp =>
      rw [labelMapStep_code, lastStep_code, ih (mapInsert m tok.token_text p) k,
        mapFind_mapInsert]
      by_cases hk : k = tok.token_text
      · rw [if_pos hk, if_pos (show (tok.token_text == k) = true from by simp [hk])]
      · rw [if_neg hk, if_neg (show ¬(tok.token_text == k) = true from by
          simpa using fun h => hk h.symm)]

theorem mapFind_buildLabelMap (bs : List Block) (k : String) :
    mapFind (buildLabelMap bs) k = lastCodePos bs k := by
  unfold buildLabelMap lastCodePos
  exact labelStep_fold bs [] k

theorem labelText?_eq_some (b : Block) (k : String) (h : b.labelText? = some k) :
    ∃ p l tok rows mp, b = Block.instructionBlock p l tok rows mp ∧ tok.token_text = k := by
  cases b with
  | commentBlock p l t rows => exact Option.noConfusion h
  | instructionBlock p l tok rows mp =>
    exact ⟨p, l, tok, rows, mp, rfl, Option.some.inj h⟩

theorem foldl_lastStep_no_match (bs : List Block) (k : String) (acc : Option Int)
    (h : ∀ b ∈ bs, b.labelText? ≠ some k) : bs.foldl (lastStep k) acc = acc := by
  induction bs generalizing acc with
  | nil => rfl
  | cons b bs ih =>
    rw [List.foldl_cons]
    cases b with
    | commentBlock p l t rows =>
      rw [lastStep_comment]
      exact ih _ (fun b2 hb2 => h b2 (List.mem_cons_of_mem _ hb2))
    | instructionBlock p l tok rows mp =>
      have hne : tok.token_text ≠ k := by
        intro hkk
        exact h _ (List.mem_cons_self _ _) (by simp [Block.labelText?, hkk])
      rw [lastStep_code, if_neg (by simpa using hne)]
      exact ih _ (fun b2 hb2 => h b2 (List.mem_cons_of_mem _ hb2))

theorem lastCodePos_inv (bs : List Block) (k : String) (p : Int) :
    ∀ acc, bs.foldl (lastStep k) acc = some p →
      acc = some p ∨ ∃ b ∈ bs, b.labelText? = some k ∧ b.pos = p := by
  induction bs with
  | nil => intro acc h; exact Or.inl h
  | cons b bs ih =>
    intro acc h
    rw [List.foldl_cons] at h
    cases b with
    | commentBlock pb l t rows =>
      rw [lastStep_comment] at h
      rcases ih _ h with h1 | ⟨b2, hb2, hl, hp⟩
      · exact Or.inl h1
      · exact Or.inr ⟨b2, List.mem_cons_of_mem _ hb2, hl, hp⟩
    | instructionBlock pb l tok rows mp =>
      rw [lastStep_code] at h
      by_cases hkk : tok.token_text = k
      · rw [if_pos (by simpa using hkk)] at h
        rcases ih _ h with h1 | ⟨b2, hb2, hl, hp⟩
        · exact Or.inr ⟨Block.instructionBlock pb l tok rows mp, List.mem_cons_self _ _,
            by simp [Block.labelText?, hkk], by simpa [Block.pos] using Option.some.inj h1⟩
        · exact Or.inr ⟨b2, List.mem_cons_of_mem _ hb2, hl, hp⟩
      · rw [if_neg (by simpa using hkk)] at h
        rcases ih _ h with h1 | ⟨b2, hb2, hl, hp⟩
        · exact Or.inl h1
        · exact Or.inr ⟨b2, List.mem_cons_of_mem _ hb2, hl, hp⟩

/-! ### The clearing pass: rows, labels and structure survive, the mapped lists empty -/

theorem get?_clear (bs : List Block) (j : Nat) :
    (clearBranchInstructionMapping bs).get? j = (bs.get? j).map Block.clearMapped := by
  unfold clearBranchInstructionMapping
  simp [List.getElem?_map]

theorem length_clear (bs : List Block) :
    (clearBranchInstructionMapping bs).length = bs.length := by
  unfold clearBranchInstructionMapping
  exact List.length_map bs Block.clearMapped

theorem getRow?_clear (bs : List Block) (bi ii : Nat) :
    getRow? (clearBranchInstructionMapping bs) bi ii = getRow? bs bi ii := by
  unfold getRow?
  rw [get?_clear]
  cases bs.get? bi with
  | none => rfl
  | some b => simp [instructionLines_clearMapped]

theorem rowHitOf_clear (lm : List (String × Int)) (bs : List Block) (bi ii : Nat) :
    rowHitOf lm (clearBranchInstructionMapping bs) bi ii = rowHitOf lm bs bi ii := by
  unfold rowHitOf
  rw [getRow?_clear]

theorem getMapped_clear (bs : List Block) (j : Nat) :
    getMapped (clearBranchInstructionMapping bs) j = [] := by
  unfold getMapped
  rw [get?_clear]
  cases bs.get? j with
  | none => rfl
  | some b => simp [mapped_clearMapped]

theorem isCodeAt_clear (bs : List Block) (j : Nat) :
    isCodeAt (clearBranchInstructionMapping bs) j = isCodeAt bs j := by
  unfold isCodeAt
  rw [get?_clear]
  cases bs.get? j with
  | none => rfl
  | some b => simp [isCode_clearMapped]

theorem buildLabelMap_clear (bs : List Block) :
    buildLabelMap (clearBranchInstructionMapping bs) = buildLabelMap bs := by
  unfold buildLabelMap clearBranchInstructionMapping
  rw [List.foldl_map]
  congr 1
  funext m b
  cases b <;> rfl

theorem lastCodePos_clear (bs : List Block) (k : String) :
    lastCodePos (clearBranchInstructionMapping bs) k = lastCodePos bs k := by
  unfold lastCodePos clearBranchInstructionMapping
  rw [List.foldl_map]
  congr 1
  funext acc b
  cases b <;> rfl

/-! ### Commutation and absorption of the pass's writes (towards idempotence) -/

theorem applySets_nil (s : List Block) : applySets [] s = s := rfl

theorem applySets_cons (h : Nat × Nat × Int) (hs : List (Nat × Nat × Int)) (s : List Block) :
    applySets (h :: hs) s = applySets hs (setOnly h s) := rfl

theorem clear_applyHit (bi ii : Nat) (t : Int) (s : List Block) :
    clearBranchInstructionMapping (applyHit bi ii t s) =
      setOnly (bi, ii, t) (clearBranchInstructionMapping s) := by
  simp only [applyHit, setOnly]
  unfold clearBranchInstructionMapping
  by_cases ht : 0 ≤ t
  · rw [if_pos ht,
      map_modifyIdx_comm (fun b => clearMapped_blockModifyRow (setFirstTokenTarget t) ii b),
      map_modifyIdx_absorb (fun b => clearMapped_blockAppendMapped (bi, ii) b)]
  · rw [if_neg ht,
      map_modifyIdx_comm (fun b => clearMapped_blockModifyRow (setFirstTokenTarget t) ii b)]

theorem clear_applyHits (hs : List (Nat × Nat × Int)) (s : List Block) :
    clearBranchInstructionMapping (applyHits hs s) =
      applySets hs (clearBranchInstructionMapping s) := by
  induction hs generalizing s with
  | nil => rfl
  | cons h hs ih => rw [applyHits_cons, ih, clear_applyHit, applySets_cons]

theorem clear_clear (bs : List Block) :
    clearBranchInstructionMapping (clearBranchInstructionMapping bs) =
      clearBranchInstructionMapping bs := by
  unfold clearBranchInstructionMapping
  rw [List.map_map]
  congr 1
  funext b
  exact clearMapped_clearMapped b

theorem blockModifyRow_congr {f g : Row → Row} (h : ∀ r, f r = g r) (ii : Nat) (b : Block) :
    blockModifyRow f ii b = blockModifyRow g ii b := by
  cases b <;> simp [blockModifyRow, modifyIdx_congr h]

theorem setPair_comm (f g : Row → Row) (bi ii bj jj : Nat) (hp : ¬(bi = bj ∧ ii = jj))
    (s : List Block) :
    modifyIdx (blockModifyRow f ii) bi (modifyIdx (blockModifyRow g jj) bj s) =
      modifyIdx (blockModifyRow g jj) bj (modifyIdx (blockModifyRow f ii) bi s) := by
  by_cases hb : bi = bj
  · have hij : ii ≠ jj := fun he => hp ⟨hb, he⟩
    subst hb
    exact modifyIdx_comm_pt (fun b => blockModifyRow_comm_ne f g hij b) _ _ s
  · exact modifyIdx_comm_ne _ _ hb s

theorem setOnly_comm (h1 h2 : Nat × Nat × Int) (hp : ¬(h1.1 = h2.1 ∧ h1.2.1 = h2.2.1))
    (s : List Block) : setOnly h1 (setOnly h2 s) = setOnly h2 (setOnly h1 s) :=
  setPair_comm _ _ _ _ _ _ hp s

theorem applyHit_setOnly_comm (bi ii : Nat) (t : Int) (h2 : Nat × Nat × Int)
    (hp : ¬(bi = h2.1 ∧ ii = h2.2.1)) (s : List Block) :
    applyHit bi ii t (setOnly h2 s) = setOnly h2 (applyHit bi ii t s) := by
  simp only [applyHit, setOnly]
  by_cases ht : 0 ≤ t
  · rw [if_pos ht,
      modifyIdx_comm_pt
        (fun b => blockAppendMapped_blockModifyRow (bi, ii) (setFirstTokenTarget h2.2.2) h2.2.1 b)
        t.toNat h2.1 s,
      setPair_comm _ _ _ _ _ _ hp, if_pos ht]
  · rw [if_neg ht, setPair_comm _ _ _ _ _ _ hp, if_neg ht]

theorem applyHit_absorb (bi ii : Nat) (t : Int) (s : List Block) :
    applyHit bi ii t (setOnly (bi, ii, t) s) = applyHit bi ii t s := by
  have hset : ∀ (x : List Block),
      modifyIdx (blockModifyRow (setFirstTokenTarget t) ii) bi
        (modifyIdx (blockModifyRow (setFirstTokenTarget t) ii) bi x) =
      modifyIdx (blockModifyRow (setFirstTokenTarget t) ii) bi x := by
    intro x
    rw [modifyIdx_comp]
    apply modifyIdx_congr
    intro b
    rw [blockModifyRow_comp]
    exact blockModifyRow_congr (fun r => setFirstTokenTarget_idem t r) ii b
  simp only [applyHit, setOnly]
  by_cases ht : 0 ≤ t
  · rw [if_pos ht,
      modifyIdx_comm_pt
        (fun b => blockAppendMapped_blockModifyRow (bi, ii) (setFirstTokenTarget t) ii b)
        t.toNat bi s,
      hset, if_pos ht]
  · rw [if_neg ht, hset, if_neg ht]

theorem setOnly_applySets_comm (h1 : Nat × Nat × Int) (hs : List (Nat × Nat × Int))
    (hp : ∀ h2 ∈ hs, ¬(h1.1 = h2.1 ∧ h1.2.1 = h2.2.1)) (s : List Block) :
    applySets hs (setOnly h1 s) = setOnly h1 (applySets hs s) := by
  induction hs generalizing s with
  | nil => rfl
  | cons h2 hs ih =>
    rw [applySets_cons, applySets_cons,
      setOnly_comm h2 h1 (fun he => hp h2 (List.mem_cons_self _ _) ⟨he.1.symm, he.2.symm⟩) s]
    exact ih (fun h3 hh3 => hp h3 (List.mem_cons_of_mem _ hh3)) (setOnly h2 s)

theorem applyHit_applySets_comm (bi ii : Nat) (t : Int) (hs : List (Nat × Nat × Int))
    (hp : ∀ h2 ∈ hs, ¬(bi = h2.1 ∧ ii = h2.2.1)) (s : List Block) :
    applyHit bi ii t (applySets hs s) = applySets hs (applyHit bi ii t s) := by
  induction hs generalizing s with
  | nil => rfl
  | cons h2 hs ih =>
    rw [applySets_cons, applySets_cons,
      ih (fun h3 hh3 => hp h3 (List.mem_cons_of_mem _ hh3)) (setOnly h2 s),
      applyHit_setOnly_comm bi ii t h2 (hp h2 (List.mem_cons_self _ _)) s]

theorem applyHits_applySets (hs : List (Nat × Nat × Int)) (s : List Block)
    (hnd : (hs.map (fun h => (h.1, h.2.1))).Nodup) :
    applyHits hs (applySets hs s) = applyHits hs s := by
  induction hs generalizing s with
  | nil => rfl
  | cons h hs ih =>
    rw [List.map_cons, List.nodup_cons] at hnd
    have hp : ∀ h2 ∈ hs, ¬(h.1 = h2.1 ∧ h.2.1 = h2.2.1) := by
      rintro h2 hh2 ⟨e1, e2⟩
      apply hnd.1
      have hm := List.mem_map_of_mem (fun x => (x.1, x.2.1)) hh2
      rw [show ((h.1 : Nat), h.2.1) = (h2.1, h2.2.1) from by rw [e1, e2]]
      exact hm
    rw [applyHits_cons, applySets_cons,
      setOnly_applySets_comm h hs hp s,
      show setOnly h (applySets hs s) = setOnly (h.1, h.2.1, h.2.2) (applySets hs s) from rfl,
      applyHit_absorb h.1 h.2.1 h.2.2 (applySets hs s),
      applyHit_applySets_comm h.1 h.2.1 h.2.2 hs hp s]
    exact ih (applyHit h.1 h.2.1 h.2.2 s) hnd.2

/-! ### The token-only writes preserve every read of the pass -/

theorem foldl_modifyIdx_invariant {β : Type u} (step : β → Block → β) (F : Block → Block)
    (hF : ∀ (m : β) (b : Block), step m (F b) = step m b) :
    ∀ (s : List Block) (n : Nat) (m : β),
      List.foldl step m (modifyIdx F n s) = List.foldl step m s := by
  intro s
  induction s with
  | nil => intro n m; rw [modifyIdx_nil]
  | cons b s ih =>
    intro n m
    cases n with
    | zero => simp only [modifyIdx, List.foldl_cons, hF]
    | succ n => simp only [modifyIdx, List.foldl_cons, ih]

theorem buildLabelMap_setOnly (h : Nat × Nat × Int) (s : List Block) :
    buildLabelMap (setOnly h s) = buildLabelMap s := by
  unfold buildLabelMap setOnly
  exact foldl_modifyIdx_invariant labelMapStep _ (fun m b => by cases b <;> rfl) s h.1 []

theorem buildLabelMap_applySets (hs : List (Nat × Nat × Int)) (s : List Block) :
    buildLabelMap (applySets hs s) = buildLabelMap s := by
  induction hs generalizing s with
  | nil => rfl
  | cons h hs ih => rw [applySets_cons, ih, buildLabelMap_setOnly]

theorem rowHitOf_setOnly (lm : List (String × Int)) (h : Nat × Nat × Int) (s : List Block)
    (bi ii : Nat) : rowHitOf lm (setOnly h s) bi ii = rowHitOf lm s bi ii := by
  unfold rowHitOf setOnly
  rw [getRow?_modifyIdx_modifyRow]
  by_cases hp : bi = h.1 ∧ ii = h.2.1
  · rw [if_pos hp]
    cases getRow? s bi ii with
    | none => rfl
    | some r => simp [rowBranchTarget_setFirstTokenTarget]
  · rw [if_neg hp]

theorem rowHitOf_applySets (lm : List (String × Int)) (hs : List (Nat × Nat × Int))
    (s : List Block) (bi ii : Nat) :
    rowHitOf lm (applySets hs s) bi ii = rowHitOf lm s bi ii := by
  induction hs generalizing s with
  | nil => rfl
  | cons h hs ih => rw [applySets_cons, ih, rowHitOf_setOnly]

theorem blockMetaAt_setOnly (h : Nat × Nat × Int) (s : List Block) (bi : Nat) :
    blockMetaAt (setOnly h s) bi = blockMetaAt s bi := by
  unfold setOnly
  exact blockMetaAt_modifyRow _ _ _ s bi

theorem blockMetaAt_applySets (hs : List (Nat × Nat × Int)) (s : List Block) (bi : Nat) :
    blockMetaAt (applySets hs s) bi = blockMetaAt s bi := by
  induction hs generalizing s with
  | nil => rfl
  | cons h hs ih => rw [applySets_cons, ih, blockMetaAt_setOnly]

theorem length_setOnly (h : Nat × Nat × Int) (s : List Block) :
    (setOnly h s).length = s.length := by
  unfold setOnly
  exact modifyIdx_length _ _ s

theorem length_applySets (hs : List (Nat × Nat × Int)) (s : List Block) :
    (applySets hs s).length = s.length := by
  induction hs generalizing s with
  | nil => rfl
  | cons h hs ih => rw [applySets_cons, ih, length_setOnly]

theorem blockHitList_none (lm : List (String × Int)) (bs : List Block) (bi : Nat)
    (h : bs.get? bi = none) : blockHitList lm bs bi = [] := by
  unfold blockHitList
  rw [h]

theorem blockHitList_some (lm : List (String × Int)) (bs : List Block) (bi : Nat) (b : Block)
    (h : bs.get? bi = some b) :
    blockHitList lm bs bi =
      (if b.isCode then
        (List.range b.instructionLines.length).filterMap (fun ii =>
          (rowHitOf lm bs bi ii).map (fun t => (bi, ii, t)))
       else []) := by
  unfold blockHitList
  rw [h]

theorem hits_ext (lm : List (String × Int)) (s1 s2 : List Block)
    (hlen : s1.length = s2.length)
    (hmeta : ∀ bi, blockMetaAt s1 bi = blockMetaAt s2 bi)
    (hrow : ∀ bi ii, rowHitOf lm s1 bi ii = rowHitOf lm s2 bi ii) :
    hits lm s1 = hits lm s2 := by
  rw [hits_eq_flatMap, hits_eq_flatMap, hlen]
  congr 1
  funext bi
  have hm := hmeta bi
  unfold blockMetaAt at hm
  cases h1 : s1.get? bi with
  | none =>
    have h2 : s2.get? bi = none := by
      rw [h1] at hm
      exact Option.map_eq_none.mp hm.symm
    rw [blockHitList_none lm s1 bi h1, blockHitList_none lm s2 bi h2]
  | some b1 =>
    rw [h1] at hm
    rcases Option.map_eq_some'.mp hm.symm with ⟨b2, hb2, hv⟩
    have hcode : b2.isCode = b1.isCode := congrArg Prod.fst hv
    have hlen2 : b2.instructionLines.length = b1.instructionLines.length :=
      congrArg Prod.snd hv
    rw [blockHitList_some lm s1 bi b1 h1, blockHitList_some lm s2 bi b2 hb2]
    by_cases hc : b1.isCode
    · rw [if_pos hc, if_pos (show b2.isCode = true by rw [hcode]; exact hc), hlen2]
      congr 1
      funext ii
      rw [hrow]
    · rw [if_neg hc, if_neg (show ¬b2.isCode = true by rw [hcode]; exact hc)]

theorem length_mapBlocks (bs : List Block) :
    (mapBlocksToBranchInstructions bs).length = bs.length := by
  by_cases h : bs = []
  · subst h; rfl
  · rw [mapBlocks_eq_applyHits bs h, length_applyHits, length_clear]

theorem mapBlocks_idem (bs : List Block) :
    mapBlocksToBranchInstructions (mapBlocksToBranchInstructions bs) =
      mapBlocksToBranchInstructions bs := by
  by_cases h : bs = []
  · subst h; rfl
  · have hA := mapBlocks_eq_applyHits bs h
    have hAne : mapBlocksToBranchInstructions bs ≠ [] := by
      intro he
      have hl := length_mapBlocks bs
      rw [he] at hl
      exact h (List.length_eq_zero.mp hl.symm)
    have hC2 : clearBranchInstructionMapping (mapBlocksToBranchInstructions bs) =
        applySets
          (hits (buildLabelMap (clearBranchInstructionMapping bs))
            (clearBranchInstructionMapping bs))
          (clearBranchInstructionMapping bs) := by
      rw [hA, clear_applyHits, clear_clear]
    rw [mapBlocks_eq_applyHits _ hAne, hC2, buildLabelMap_applySets,
      hits_ext _ _ _ (length_applySets _ _) (fun bi => blockMetaAt_applySets _ _ bi)
        (fun bi ii => rowHitOf_applySets _ _ _ bi ii),
      applyHits_applySets _ _ (hits_pairs_nodup _ _)]
    exact hA.symm

/-! ### The flattened line-number index of CacheSizeHints -/

theorem lineListAux_cons (bi : Nat) (b : Block) (rest : List Block) :
    lineListAux bi (b :: rest) =
      (kUInt32Max, bi) ::
        ((List.range b.instructionLines.length).map (fun ii => (bi, ii))) ++
        lineListAux (bi + 1) rest := rfl

theorem flatAux_cons (bi : Nat) (b : Block) (rest : List Block) :
    flatAux bi (b :: rest) =
      ModelIdx.top bi ::
        ((List.range b.instructionLines.length).map (fun ii => ModelIdx.child bi ii)) ++
        flatAux (bi + 1) rest := rfl

theorem lineListAux_length (bs : List Block) :
    ∀ bi, (lineListAux bi bs).length =
      bs.length + (bs.map (fun b => b.instructionLines.length)).sum := by
  induction bs with
  | nil => intro bi; rfl
  | cons b rest ih =>
    intro bi
    rw [lineListAux_cons]
    simp only [List.length_cons, List.length_append, List.length_map, List.length_range,
      List.map_cons, List.sum_cons, ih (bi + 1)]
    omega

theorem lineList_length (bs : List Block) :
    (lineNumberCorrespondingIndices bs).length =
      bs.length + (bs.map (fun b => b.instructionLines.length)).sum :=
  lineListAux_length bs 0

theorem blocks_length_le_lineList (bs : List Block) :
    bs.length ≤ (lineNumberCorrespondingIndices bs).length := by
  rw [lineList_length]
  omega

theorem rows_length_le_lineList (bs : List Block) (b : Block) (h : b ∈ bs) :
    b.instructionLines.length ≤ (lineNumberCorrespondingIndices bs).length := by
  rw [lineList_length]
  have h1 : b.instructionLines.length ≤ (bs.map (fun b => b.instructionLines.length)).sum :=
    List.single_le_sum (fun x _ => Nat.zero_le x) _
      (List.mem_map_of_mem (fun b => b.instructionLines.length) h)
  omega

theorem rowCountAt_top (bs : List Block) (r : Nat) (b : Block) (h : bs.get? r = some b) :
    rowCountAt bs (ModelIdx.top r) = b.instructionLines.length := by
  show (match bs.get? r with
    | some b => b.instructionLines.length
    | none => 0) = b.instructionLines.length
  rw [h]

theorem decodePair_header (bs : List Block) (bi : Nat) (hbi : bi < bs.length)
    (hsmall : bs.length < 2 ^ 31) :
    decodePair bs (kUInt32Max, bi) = ModelIdx.top bi := by
  unfold decodePair toInt32
  have h1 : ¬(kUInt32Max < 2 ^ 31) := by unfold kUInt32Max; omega
  have h2 : bi < 2 ^ 31 := by omega
  rw [if_neg h1, if_pos h2]
  have h3 : mkIndex bs ((kUInt32Max : Int) - 2 ^ 32) ModelIdx.invalid = ModelIdx.invalid := by
    unfold mkIndex
    rw [if_neg]
    rintro ⟨hc, -⟩
    unfold kUInt32Max at hc
    omega
  rw [h3]
  unfold mkIndex
  rw [if_pos (show 0 ≤ (bi : Int) ∧ (bi : Int) < (rowCountAt bs ModelIdx.invalid : Int) from
    ⟨by omega, show (bi : Int) < (bs.length : Int) by omega⟩)]
  simp

theorem decodePair_child (bs : List Block) (bi ii : Nat) (b : Block)
    (hget : bs.get? bi = some b) (hbi : bi < bs.length) (hii : ii < b.instructionLines.length)
    (hsmall : bs.length < 2 ^ 31) (hrow : b.instructionLines.length < 2 ^ 31) :
    decodePair bs (bi, ii) = ModelIdx.child bi ii := by
  unfold decodePair toInt32
  have h2 : bi < 2 ^ 31 := by omega
  have h4 : ii < 2 ^ 31 := by omega
  rw [if_pos h2, if_pos h4]
  have h5 : mkIndex bs (bi : Int) ModelIdx.invalid = ModelIdx.top bi := by
    unfold mkIndex
    rw [if_pos (show 0 ≤ (bi : Int) ∧ (bi : Int) < (rowCountAt bs ModelIdx.invalid : Int) from
      ⟨by omega, show (bi : Int) < (bs.length : Int) by omega⟩)]
    simp
  rw [h5]
  unfold mkIndex
  rw [rowCountAt_top bs bi b hget,
    if_pos (by constructor <;> omega)]
  simp

theorem lineListAux_decode (bs : List Block) (hsmall : bs.length < 2 ^ 31)
    (hrows : ∀ b ∈ bs, b.instructionLines.length < 2 ^ 31) :
    ∀ (rest : List Block) (bi : Nat), rest = bs.drop bi →
      (lineListAux bi rest).map (decodePair bs) = flatAux bi rest := by
  intro rest
  induction rest with
  | nil => intro bi _; rfl
  | cons b rest ih =>
    intro bi hdrop
    have hget : bs.get? bi = some b := by
      have h0 : (bs.drop bi)[0]? = bs[bi + 0]? := List.getElem?_drop bs bi 0
      rw [← hdrop] at h0
      simpa [List.get?_eq_getElem?] using h0.symm
    have hbi_lt : bi < bs.length := by
      rcases List.get?_eq_some.mp hget with ⟨hl, -⟩
      exact hl
    have hmem : b ∈ bs := List.get?_mem hget
    have hdrop' : rest = bs.drop (bi + 1) := by
      have h1 : bs.drop (bi + 1) = (bs.drop bi).drop 1 := by
        rw [List.drop_drop]
      rw [h1, ← hdrop]
      rfl
    rw [lineListAux_cons, flatAux_cons, List.map_append, List.map_cons, List.map_map]
    rw [decodePair_header bs bi hbi_lt hsmall]
    have hchild : ((List.range b.instructionLines.length).map
        ((decodePair bs) ∘ (fun ii => (bi, ii)))) =
        (List.range b.instructionLines.length).map (fun ii => ModelIdx.child bi ii) := by
      apply List.map_congr_left
      intro ii hiir
      have hii := List.mem_range.mp hiir
      exact decodePair_child bs bi ii b hget hbi_lt hii hsmall (hrows b hmem)
    rw [hchild, ih (bi + 1) hdrop']

theorem getLineNumber_decode (bs : List Block) (ln : Nat)
    (h : ln < (lineNumberCorrespondingIndices bs).length) :
    getLineNumberModelIndex bs (ln : Int) =
      decodePair bs ((lineNumberCorrespondingIndices bs).get ⟨ln, h⟩) := by
  simp only [getLineNumberModelIndex]
  rw [if_neg (show ¬((ln : Int) < 0 ∨
      ((lineNumberCorrespondingIndices bs).length : Int) ≤ (ln : Int)) by omega)]
  have h1 : ((ln : Int)).toNat = ln := Int.toNat_natCast ln
  rw [h1, List.get?_eq_get h]
  rfl

theorem map_range_decode (bs : List Block) :
    (List.range (lineNumberCorrespondingIndices bs).length).map
        (fun ln : Nat => getLineNumberModelIndex bs (ln : Int)) =
      (lineNumberCorrespondingIndices bs).map (decodePair bs) := by
  apply List.ext_getElem
  · simp
  · intro n h1 h2
    simp only [List.getElem_map, List.getElem_range]
    have hn : n < (lineNumberCorrespondingIndices bs).length := by simpa using h2
    exact getLineNumber_decode bs n hn

theorem flatAux_above (rest : List Block) :
    ∀ bi x, x ∈ flatAux bi rest → aboveIdx bi x := by
  induction rest with
  | nil => intro bi x hx; exact absurd hx (List.not_mem_nil x)
  | cons b rest ih =>
    intro bi x hx
    rw [flatAux_cons, List.cons_append] at hx
    rcases List.mem_cons.mp hx with rfl | hx2
    · exact Nat.le_refl bi
    · rcases List.mem_append.mp hx2 with hc | hr
      · rcases List.mem_map.mp hc with ⟨ii, _, rfl⟩
        exact Nat.le_refl bi
      · have ha := ih (bi + 1) x hr
        cases x with
        | invalid => exact ha
        | top r => exact Nat.le_of_succ_le ha
        | child p ii => exact Nat.le_of_succ_le ha

theorem flatAux_nodup (rest : List Block) : ∀ bi, (flatAux bi rest).Nodup := by
  induction rest with
  | nil => intro bi; exact List.nodup_nil
  | cons b rest ih =>
    intro bi
    rw [flatAux_cons, List.cons_append, List.nodup_cons, List.nodup_append]
    refine ⟨?_, ?_, ih (bi + 1), ?_⟩
    · intro hmem
      rcases List.mem_append.mp hmem with hc | hr
      · rcases List.mem_map.mp hc with ⟨ii, _, he⟩
        exact ModelIdx.noConfusion he
      · have ha := flatAux_above rest (bi + 1) _ hr
        have : bi + 1 ≤ bi := ha
        omega
    · exact List.Nodup.map (fun a a' ha => by injection ha) (List.nodup_range _)
    · intro x hc hr
      rcases List.mem_map.mp hc with ⟨ii, _, rfl⟩
      have ha := flatAux_above rest (bi + 1) _ hr
      have : bi + 1 ≤ bi := ha
      omega

theorem flatAux_mem_iff (bs : List Block) :
    ∀ (rest : List Block) (bi : Nat), rest = bs.drop bi →
      ∀ x, (x ∈ flatAux bi rest ↔ validLineIdx bs x ∧ aboveIdx bi x) := by
  intro rest
  induction rest with
  | nil =>
    intro bi hdrop x
    constructor
    · intro hx; exact absurd hx (List.not_mem_nil x)
    · rintro ⟨hv, ha⟩
      have hlen : bs.length ≤ bi := List.drop_eq_nil_iff_le.mp hdrop.symm
      exfalso
      cases x with
      | invalid => exact hv
      | top r =>
        have hv' : r < bs.length := hv
        have ha' : bi ≤ r := ha
        omega
      | child p ii =>
        rcases hv with ⟨b, hb, -⟩
        have hp : p < bs.length := (List.get?_eq_some.mp hb).1
        have ha' : bi ≤ p := ha
        omega
  | cons b rest ih =>
    intro bi hdrop x
    have hget : bs.get? bi = some b := by
      have h0 : (bs.drop bi)[0]? = bs[bi + 0]? := List.getElem?_drop bs bi 0
      rw [← hdrop] at h0
      simpa [List.get?_eq_getElem?] using h0.symm
    have hbi_lt : bi < bs.length := (List.get?_eq_some.mp hget).1
    have hdrop' : rest = bs.drop (bi + 1) := by
      have h1 : bs.drop (bi + 1) = (bs.drop bi).drop 1 := by rw [List.drop_drop]
      rw [h1, ← hdrop]
      rfl
    rw [flatAux_cons, List.cons_append, List.mem_cons, List.mem_append]
    constructor
    · rintro (rfl | hc | hr)
      · exact ⟨hbi_lt, Nat.le_refl bi⟩
      · rcases List.mem_map.mp hc with ⟨ii, hiir, rfl⟩
        exact ⟨⟨b, hget, List.mem_range.mp hiir⟩, Nat.le_refl bi⟩
      · rcases (ih (bi + 1) hdrop' x).mp hr with ⟨hv, ha⟩
        refine ⟨hv, ?_⟩
        cases x with
        | invalid => exact ha
        | top r => exact Nat.le_of_succ_le ha
        | child p ii => exact Nat.le_of_succ_le ha
    · rintro ⟨hv, ha⟩
      cases x with
      | invalid => exact absurd hv id
      | top r =>
        have ha' : bi ≤ r := ha
        by_cases hre : r = bi
        · subst hre
          exact Or.inl rfl
        · exact Or.inr (Or.inr ((ih (bi + 1) hdrop' _).mpr ⟨hv, show bi + 1 ≤ r by omega⟩))
      | child p ii =>
        have ha' : bi ≤ p := ha
        by_cases hpe : p = bi
        · subst hpe
          rcases hv with ⟨b', hb', hii⟩
          rw [hget] at hb'
          have hbb : b' = b := Option.some.inj hb'.symm
          subst hbb
          exact Or.inr (Or.inl (List.mem_map.mpr ⟨ii, List.mem_range.mpr hii, rfl⟩))
        · exact Or.inr (Or.inr ((ih (bi + 1) hdrop' _).mpr
            ⟨hv, show bi + 1 ≤ p by omega⟩))

theorem flattenedIndices_nodup (bs : List Block) : (flattenedIndices bs).Nodup :=
  flatAux_nodup bs 0

theorem flattenedIndices_mem (bs : List Block) (x : ModelIdx) :
    x ∈ flattenedIndices bs ↔ validLineIdx bs x := by
  rw [show flattenedIndices bs = flatAux 0 bs from rfl,
    flatAux_mem_iff bs bs 0 (by rw [List.drop_zero]) x]
  constructor
  · rintro ⟨hv, -⟩
    exact hv
  · intro hv
    refine ⟨hv, ?_⟩
    cases x with
    | invalid => exact hv
    | top r => exact Nat.zero_le r
    | child p ii => exact Nat.zero_le p

theorem takeWhile_all {p : Char → Bool} (l : List Char) (h : l.all p = true) :
    l.takeWhile p = l := by
  induction l with
  | nil => rfl
  | cons c cs ih =>
    rw [List.all_cons, Bool.and_eq_true] at h
    rw [List.takeWhile_cons, if_pos h.1, ih h.2]

theorem dropWhile_all_not {p : Char → Bool} (l : List Char)
    (h : ∀ c ∈ l, p c = false) : l.dropWhile p = l := by
  cases l with
  | nil => rfl
  | cons c cs => rw [List.dropWhile_cons, h c (List.mem_cons_self c cs)]; rfl

theorem takeWhile_append_stop {p : Char → Bool} (xs : List Char) (y : Char) (ys : List Char)
    (hxs : xs.all p = true) (hy : p y = false) :
    (xs ++ y :: ys).takeWhile p = xs := by
  induction xs with
  | nil => rw [List.nil_append, List.takeWhile_cons, hy]; rfl
  | cons x xs' ih =>
    rw [List.all_cons, Bool.and_eq_true] at hxs
    rw [List.cons_append, List.takeWhile_cons, if_pos hxs.1, ih hxs.2]

theorem dropWhile_append_stop {p : Char → Bool} (xs : List Char) (y : Char) (ys : List Char)
    (hxs : xs.all p = true) (hy : p y = false) :
    (xs ++ y :: ys).dropWhile p = y :: ys := by
  induction xs with
  | nil => rw [List.nil_append, List.dropWhile_cons, hy]; rfl
  | cons x xs' ih =>
    rw [List.all_cons, Bool.and_eq_true] at hxs
    rw [List.cons_append, List.dropWhile_cons, hxs.1]
    exact ih hxs.2

theorem trimStr_no_trim (l : List Char) (h : ∀ c ∈ l, isTrimChar c = false) :
    trimStr l = l := by
  rw [trimStr, dropWhile_all_not _ (fun c hc => h c (List.mem_reverse.mp hc)),
    List.reverse_reverse, dropWhile_all_not _ h]

theorem digit_not_trim (c : Char) (h : isDigitChar c = true) : isTrimChar c = false := by
  rw [isDigitChar, Bool.and_eq_true, decide_eq_true_eq, decide_eq_true_eq] at h
  by_contra hc
  rw [Bool.not_eq_false, isTrimChar] at hc
  have hmem : c ∈ kSpecialChars := by simpa using hc
  simp only [kSpecialChars, List.mem_cons] at hmem
  rcases hmem with h1 | h1 | h1 | h1 | h1 | h1 | h1
  · subst h1; revert h; decide
  · subst h1; revert h; decide
  · subst h1; revert h; decide
  · subst h1; revert h; decide
  · subst h1; revert h; decide
  · subst h1; revert h; decide
  · cases h1

theorem digit_ne_colon (c : Char) (h : isDigitChar c = true) : (c == ':') = false := by
  rw [isDigitChar, Bool.and_eq_true, decide_eq_true_eq, decide_eq_true_eq] at h
  by_contra hc
  rw [Bool.not_eq_false, beq_iff_eq] at hc
  subst hc
  revert h
  decide

theorem trimStr_digits (l : List Char) (h : l.all isDigitChar = true) : trimStr l = l :=
  trimStr_no_trim l (fun c hc =>
    digit_not_trim c (by rw [List.all_eq_true] at h; exact h c hc))

theorem splitChar_no_delim (d : Char) (l : List Char)
    (h : ∀ c ∈ l, (c == d) = false) : splitChar d l = [l] := by
  induction l with
  | nil => rfl
  | cons c cs ih =>
    have hc := h c (List.mem_cons_self c cs)
    have ih' := ih (fun x hx => h x (List.mem_cons_of_mem c hx))
    simp only [splitChar, hc, Bool.false_eq_true, if_false, List.append_eq, ih']

theorem splitChar_mid (d : Char) (xs ys : List Char)
    (hxs : ∀ c ∈ xs, (c == d) = false) (hys : ∀ c ∈ ys, (c == d) = false) :
    splitChar d (xs ++ d :: ys) = [xs, ys] := by
  induction xs with
  | nil =>
    simp only [List.nil_append, splitChar, beq_self_eq_true, if_true,
      splitChar_no_delim d ys hys]
  | cons x xs' ih =>
    have hx := hxs x (List.mem_cons_self x xs')
    have ih' := ih (fun c hc => hxs c (List.mem_cons_of_mem x hc))
    simp only [List.cons_append, splitChar, hx, Bool.false_eq_true, if_false,
      List.append_eq, ih']

theorem splitTrim_digit_pair (ds1 ds2 : List Char)
    (h1 : ds1.all isDigitChar = true) (h2 : ds2.all isDigitChar = true) :
    splitTrim ':' (ds1 ++ ':' :: ds2) = [ds1, ds2] := by
  rw [List.all_eq_true] at h1 h2
  rw [splitTrim, splitChar_mid ':' ds1 ds2
    (fun c hc => digit_ne_colon c (h1 c hc)) (fun c hc => digit_ne_colon c (h2 c hc))]
  rw [List.map_cons, List.map_cons, List.map_nil,
    trimStr_digits ds1 (by rw [List.all_eq_true]; exact h1),
    trimStr_digits ds2 (by rw [List.all_eq_true]; exact h2)]

theorem singleRegFull_bracket_false (letter c0 : Char) (rest : List Char)
    (h1 : (c0 == '-') = false) (h2 : (c0 == '|') = false) :
    singleRegFull letter (c0 :: '[' :: rest) = false := by
  simp [singleRegFull, h1, h2, regCore, (by decide : isDigitChar '[' = false)]

theorem pairStartFull_head_false (letter c0 : Char) (rest : List Char)
    (h : (c0 == '[') = false) : pairStartFull letter (c0 :: rest) = false := by
  simp [pairStartFull, h]

theorem pairEndFull_bracket_false (letter c0 : Char) (mid : List Char)
    (h1 : (c0 == '-') = false) (h2 : (c0 == '|') = false) :
    pairEndFull letter ((c0 :: '[' :: mid) ++ [']']) = false := by
  simp only [pairEndFull, List.getLast?_concat, List.dropLast_concat]
  rw [singleRegFull_bracket_false letter c0 mid h1 h2]
  simp

theorem rangeFull_head_false (letter c0 c1 : Char) (rest : List Char)
    (h : (c0 == letter) = false) : rangeFull letter (c0 :: c1 :: rest) = false := by
  simp [rangeFull, h]

theorem isEmpty_false_of_ne_nil {l : List Char} (h : l ≠ []) : l.isEmpty = false := by
  cases l with
  | nil => exact absurd rfl h
  | cons c cs => rfl

theorem cons_shape_concat (ds1 ds2 : List Char) :
    (ds1 ++ ':' :: ds2) ++ [']'] = ds1 ++ ':' :: (ds2 ++ [']']) := by
  simp

theorem rangeFull_shape_true (letter : Char) (ds1 ds2 : List Char)
    (h1 : ds1 ≠ []) (h2 : ds2 ≠ [])
    (hd1 : ds1.all isDigitChar = true) (hd2 : ds2.all isDigitChar = true) :
    rangeFull letter (letter :: '[' :: (ds1 ++ ':' :: (ds2 ++ [']']))) = true := by
  rw [← cons_shape_concat]
  simp only [rangeFull, List.getLast?_concat, List.dropLast_concat, beq_self_eq_true,
    Bool.true_and]
  rw [takeWhile_append_stop ds1 ':' ds2 hd1 (by decide),
    dropWhile_append_stop ds1 ':' ds2 hd1 (by decide)]
  simp [isEmpty_false_of_ne_nil h1, isEmpty_false_of_ne_nil h2, hd2]

theorem findIdx?_cons_eval (p : Char → Bool) (a : Char) (l : List Char) (i : Nat) :
    List.findIdx? p (a :: l) i = if p a then some i else List.findIdx? p l (i + 1) := rfl

theorem classify_by_flags (l a b : List Char)
    (hsS : singleRegFull 's' l = false) (hsV : singleRegFull 'v' l = false)
    (hpSS : pairStartFull 's' l = false) (hpSV : pairStartFull 'v' l = false)
    (hpES : pairEndFull 's' l = false) (hpEV : pairEndFull 'v' l = false)
    (hrs : rangeFull 's' l = true)
    (hsplit : splitTrim ':' ((l.dropLast).drop 2) = [a, b])
    (hta : a.takeWhile isDigitChar = a) (htb : b.takeWhile isDigitChar = b) :
    tokFields (classifyNonBranchToken (String.mk l)) =
      (String.mk l, TokenType.kScalarRegisterType,
        (digitsToNat a : Int), (digitsToNat b : Int), true) := by
  simp [classifyNonBranchToken, hsS, hsV, hpSS, hpSV, hpES, hpEV, hrs, hsplit,
    tokFields, clearToken, stoiLeading, hta, htb]

theorem classify_scalar_simple (neg : Bool) (ds : List Char) (hne : ds ≠ [])
    (hdig : ds.all isDigitChar = true) :
    tokFields (classifyNonBranchToken (String.mk ((cond neg ['-'] []) ++ 's' :: ds))) =
      (String.mk ((cond neg ['-'] []) ++ 's' :: ds), TokenType.kScalarRegisterType,
        (digitsToNat ds : Int), -1, true) := by
  cases ds with
  | nil => exact absurd rfl hne
  | cons c ds' =>
    rw [List.all_cons, Bool.and_eq_true] at hdig
    have htk : (c :: ds').takeWhile isDigitChar = c :: ds' :=
      takeWhile_all _ (by simp [hdig.1, hdig.2])
    cases neg with
    | false =>
      have hs : singleRegFull 's' ('s' :: c :: ds') = true := by
        simp [singleRegFull, regCore, hdig.1, hdig.2]
      simp [classifyNonBranchToken, hs, findIdx?_cons_eval, tokFields, clearToken,
        stoiLeading, htk, hdig.1]
    | true =>
      have hs : singleRegFull 's' ('-' :: 's' :: c :: ds') = true := by
        simp [singleRegFull, regCore, hdig.1, hdig.2]
      simp [classifyNonBranchToken, hs, findIdx?_cons_eval, tokFields, clearToken,
        stoiLeading, htk, hdig.1]

theorem classify_range_s (ds1 ds2 : List Char)
    (h1 : ds1 ≠ []) (h2 : ds2 ≠ [])
    (hd1 : ds1.all isDigitChar = true) (hd2 : ds2.all isDigitChar = true) :
    tokFields (classifyNonBranchToken
        (String.mk ('s' :: '[' :: (ds1 ++ ':' :: (ds2 ++ [']']))))) =
      (String.mk ('s' :: '[' :: (ds1 ++ ':' :: (ds2 ++ [']']))),
        TokenType.kScalarRegisterType,
        (digitsToNat ds1 : Int), (digitsToNat ds2 : Int), true) := by
  apply classify_by_flags
  case hsS => exact singleRegFull_bracket_false 's' 's' _ (by decide) (by decide)
  case hsV => exact singleRegFull_bracket_false 'v' 's' _ (by decide) (by decide)
  case hpSS => exact pairStartFull_head_false 's' 's' _ (by decide)
  case hpSV => exact pairStartFull_head_false 'v' 's' _ (by decide)
  case hpES =>
    rw [show 's' :: '[' :: (ds1 ++ ':' :: (ds2 ++ [']'])) =
        ('s' :: '[' :: (ds1 ++ ':' :: ds2)) ++ [']'] by
      rw [List.cons_append, List.cons_append, cons_shape_concat]]
    exact pairEndFull_bracket_false 's' 's' _ (by decide) (by decide)
  case hpEV =>
    rw [show 's' :: '[' :: (ds1 ++ ':' :: (ds2 ++ [']'])) =
        ('s' :: '[' :: (ds1 ++ ':' :: ds2)) ++ [']'] by
      rw [List.cons_append, List.cons_append, cons_shape_concat]]
    exact pairEndFull_bracket_false 'v' 's' _ (by decide) (by decide)
  case hrs => exact rangeFull_shape_true 's' ds1 ds2 h1 h2 hd1 hd2
  case hsplit =>
    rw [show ('s' :: '[' :: (ds1 ++ ':' :: (ds2 ++ [']']))).dropLast =
        's' :: '[' :: (ds1 ++ ':' :: ds2) by
      rw [show 's' :: '[' :: (ds1 ++ ':' :: (ds2 ++ [']'])) =
          ('s' :: '[' :: (ds1 ++ ':' :: ds2)) ++ [']'] by
        rw [List.cons_append, List.cons_append, cons_shape_concat]]
      exact List.dropLast_concat]
    exact splitTrim_digit_pair ds1 ds2 hd1 hd2
  case hta => exact takeWhile_all ds1 hd1
  case htb => exact takeWhile_all ds2 hd2

theorem layoutLoop_fields (w : Rat) (toks : List Token) :
    ∀ (tw sx ex : Rat),
      ((layoutLoop w tw sx ex toks).1).map tokFields = toks.map tokFields := by
  induction toks with
  | nil => intro tw sx ex; rfl
  | cons t rest ih =>
    intro tw sx ex
    cases rest with
    | nil => simp [layoutLoop, tokFields]
    | cons t2 rest2 =>
      simp only [layoutLoop, List.map_cons]
      rw [ih]
      simp [tokFields]

theorem parseOperands_fields (w : Rat) (br : Bool) (operands : List String) :
    ∀ (tw sx ex : Rat) (gi : Nat),
      ((parseOperands w br tw sx ex operands).get? gi).map (fun g => g.map tokFields) =
        (operands.get? gi).map (fun operand =>
          (splitTrim ' ' operand.data).map (fun tk =>
            tokFields (if br then
              { clearToken with token_text := String.mk tk, type := TokenType.kBranchLabelType }
            else classifyNonBranchToken (String.mk tk)))) := by
  induction operands with
  | nil => intro tw sx ex gi; rfl
  | cons op rest ih =>
    intro tw sx ex gi
    cases gi with
    | zero =>
      simp only [parseOperands, List.get?, Option.map_some']
      rw [layoutLoop_fields]
      simp [Function.comp]
    | succ gi' =>
      simp only [parseOperands, List.get?]
      exact ih _ _ _ gi'

theorem tokenFieldsAt_parse (op_code : String) (operands : List String) (w : Rat)
    (gi ti : Nat) (tf : String × TokenType × Int × Int × Bool) :
    tokenFieldsAt (parseSelectableTokens op_code operands w).2 gi ti = some tf ↔
      ∃ operand piece, operands.get? gi = some operand ∧
        (splitTrim ' ' operand.data).get? ti = some piece ∧
        tf = tokFields (if isBranchOpcode op_code then
          { clearToken with token_text := String.mk piece, type := TokenType.kBranchLabelType }
        else classifyNonBranchToken (String.mk piece)) := by
  have hf := parseOperands_fields w (isBranchOpcode op_code) operands
    (w * (op_code.length : Rat)) 0 0 gi
  have hres : (parseSelectableTokens op_code operands w).2 =
      parseOperands w (isBranchOpcode op_code) (w * (op_code.length : Rat)) 0 0 operands := rfl
  rw [tokenFieldsAt, hres]
  cases ho : operands.get? gi with
  | none =>
    rw [ho] at hf
    have hnone : (parseOperands w (isBranchOpcode op_code)
        (w * (op_code.length : Rat)) 0 0 operands).get? gi = none := by
      cases hcase : (parseOperands w (isBranchOpcode op_code)
          (w * (op_code.length : Rat)) 0 0 operands).get? gi with
      | none => rfl
      | some g => rw [hcase] at hf; exact absurd hf (by simp)
    rw [hnone]
    simp
  | some operand =>
    rw [ho] at hf
    cases hg : (parseOperands w (isBranchOpcode op_code)
        (w * (op_code.length : Rat)) 0 0 operands).get? gi with
    | none => rw [hg] at hf; exact absurd hf (by simp)
    | some g =>
      rw [hg] at hf
      simp only [Option.map_some'] at hf
      have hfields : g.map tokFields = (splitTrim ' ' operand.data).map (fun tk =>
          tokFields (if isBranchOpcode op_code then
            { clearToken with token_text := String.mk tk, type := TokenType.kBranchLabelType }
          else classifyNonBranchToken (String.mk tk))) := by
        exact Option.some.inj hf
      constructor
      · intro hsome
        simp only [Option.some_bind] at hsome
        rcases Option.map_eq_some'.mp hsome with ⟨tk, htk, htf⟩
        refine ⟨operand, ?_⟩
        have hmap : (g.map tokFields).get? ti = some (tokFields tk) := by
          rw [List.get?_map, htk, Option.map_some']
        rw [hfields, List.get?_map] at hmap
        rcases Option.map_eq_some'.mp hmap with ⟨piece, hpiece, hpf⟩
        exact ⟨piece, rfl, hpiece, by rw [← htf, ← hpf]⟩
      · rintro ⟨operand', piece, hop, hpiece, htf⟩
        have hop' : operand = operand' := Option.some.inj hop
        subst hop'
        simp only [Option.some_bind]
        have hmap : (g.map tokFields).get? ti = some tf := by
          rw [hfields, List.get?_map, hpiece, Option.map_some', ← htf]
        rw [List.get?_map] at hmap
        rcases Option.map_eq_some'.mp hmap with ⟨tk, htk, htf'⟩
        rw [htk, Option.map_some', htf']

theorem classify_token_text (s : String) : (classifyNonBranchToken s).token_text = s := by
  unfold classifyNonBranchToken
  dsimp only
  repeat' split
  all_goals rfl

theorem wellPositioned_pos (bs : List Block) (j : Nat) (b : Block)
    (hwp : wellPositioned bs = true) (hj : bs.get? j = some b) (hc : b.isCode = true) :
    b.pos = (j : Int) := by
  unfold wellPositioned at hwp
  rw [List.all_eq_true] at hwp
  have hjlt : j < bs.length := (List.get?_eq_some.mp hj).1
  have hx := hwp j (List.mem_range.mpr hjlt)
  simp only [hj, hc, Bool.not_true, Bool.false_or] at hx
  exact beq_iff_eq.mp hx

theorem foldl_lastStep_last (bs : List Block) (k : String) :
    ∀ (j : Nat) (b : Block) (acc : Option Int),
      bs.get? j = some b → b.labelText? = some k →
      (∀ m b2, j < m → bs.get? m = some b2 → b2.labelText? ≠ some k) →
      bs.foldl (lastStep k) acc = some b.pos := by
  induction bs with
  | nil => intro j b acc hj _ _; exact absurd hj (by simp)
  | cons hd tl ih =>
    intro j b acc hj hlab hafter
    cases j with
    | zero =>
      have hb : hd = b := Option.some.inj hj
      subst hb
      rcases labelText?_eq_some hd k hlab with ⟨p, l, tok, rows, mp, hshape, htok⟩
      subst hshape
      rw [List.foldl_cons, lastStep_code, if_pos (by simpa using htok)]
      have hno : ∀ b2 ∈ tl, b2.labelText? ≠ some k := by
        intro b2 hb2
        rcases List.get?_of_mem hb2 with ⟨m, hm⟩
        exact hafter (m + 1) b2 (Nat.succ_pos m) (by simpa using hm)
      rw [foldl_lastStep_no_match tl k _ hno]
      rfl
    | succ j' =>
      rw [List.foldl_cons]
      exact ih j' b _ (by simpa using hj) hlab
        (fun m b2 hm hb2 => hafter (m + 1) b2 (by omega) (by simpa using hb2))

theorem lastCodePos_last (bs : List Block) (k : String) (j : Nat) (b : Block)
    (hj : bs.get? j = some b) (hlab : b.labelText? = some k)
    (hafter : ∀ m b2, j < m → bs.get? m = some b2 → b2.labelText? ≠ some k) :
    lastCodePos bs k = some b.pos :=
  foldl_lastStep_last bs k j b none hj hlab hafter

theorem lastCodePos_none (bs : List Block) (k : String)
    (hno : ∀ b ∈ bs, b.labelText? ≠ some k) : lastCodePos bs k = none :=
  foldl_lastStep_no_match bs k none hno

theorem getRow?_some_shape (bs : List Block) (bi ii : Nat) (r : Row)
    (h : getRow? bs bi ii = some r) :
    bi < bs.length ∧ ∃ b, bs.get? bi = some b ∧ ii < b.instructionLines.length := by
  unfold getRow? at h
  cases hb : bs.get? bi with
  | none => rw [hb] at h; exact Option.noConfusion h
  | some b =>
    rw [hb] at h
    simp only [Option.some_bind] at h
    exact ⟨(List.get?_eq_some.mp hb).1, b, rfl, (List.get?_eq_some.mp h).1⟩

theorem firstOperand_shape (bs : List Block) (bi ii : Nat) (tk0 : Token)
    (h : getFirstOperandToken? bs bi ii = some tk0) :
    ∃ ln op tks gs pc bin en,
      getRow? bs bi ii = some (Row.instruction ln op ((tk0 :: tks) :: gs) pc bin en) := by
  unfold getFirstOperandToken? at h
  cases hr : getRow? bs bi ii with
  | none => rw [hr] at h; exact Option.noConfusion h
  | some r =>
    rw [hr] at h
    cases r with
    | comment ln t => exact Option.noConfusion h
    | instruction ln op groups pc bin en =>
      cases groups with
      | nil => exact Option.noConfusion h
      | cons g gs =>
        cases g with
        | nil => exact Option.noConfusion h
        | cons t0 tks =>
          refine ⟨ln, op, tks, gs, pc, bin, en, ?_⟩
          rw [(Option.some.inj h : t0 = tk0)]

/-- C1: on the two-block document whose block 0 is the code block labelled "label0" and whose
block 1 is the code block labelled "label1" holding the single instruction `s_branch label0`,
the resolution pass leaves block 0's mapped-branch-instruction list equal to [(1, 0)] and sets
the branch instruction's first operand token's start_register_index to 0. -/
theorem claim_C1 :
    getMapped (mapBlocksToBranchInstructions c1Doc) 0 = [(1, 0)] ∧
      firstOperandTarget? (mapBlocksToBranchInstructions c1Doc) 1 0 = some 0 := by
  constructor <;> decide

/-- C3: the branch/label resolution pass is idempotent — running it twice on an unchanged
document produces exactly the state of running it once (so every code block's mapped list and
every branch token's resolved target are identical, with no duplicate entries accumulated). -/
theorem claim_C3 (bs : List Block) :
    mapBlocksToBranchInstructions (mapBlocksToBranchInstructions bs) =
      mapBlocksToBranchInstructions bs :=
  mapBlocks_idem bs

/-- C9: out-of-range queries return well-defined empty results on every model state including
the empty document: GetLineNumberModelIndex yields the invalid index for every line number below
zero or at/above the line count, and ColumnSizeHint yields the zero size for every column index
below zero or at/above the column count. -/
theorem claim_C9 (bs : List Block) (cw : List Nat) (fh : Rat) (ln ci : Int)
    (hln : ln < 0 ∨ (getLineCount bs : Int) ≤ ln)
    (hci : ci < 0 ∨ (kColumnCount : Int) ≤ ci) :
    getLineNumberModelIndex bs ln = ModelIdx.invalid ∧ columnSizeHint cw fh ci = (0, 0) := by
  constructor
  · simp only [getLineNumberModelIndex]
    rw [if_pos
      (show ln < 0 ∨ ((lineNumberCorrespondingIndices bs).length : Int) ≤ ln from hln)]
  · unfold columnSizeHint
    rw [if_pos hci]

theorem claim_C9_witness :
    ((0 : Int) < 0 ∨ (getLineCount ([] : List Block) : Int) ≤ 0) ∧
      ((5 : Int) < 0 ∨ (kColumnCount : Int) ≤ 5) ∧
      (getLineNumberModelIndex ([] : List Block) 0 = ModelIdx.invalid ∧
        columnSizeHint [] 0 5 = (0, 0)) :=
  ⟨by decide, by decide, claim_C9 [] [] 0 0 5 (by decide) (by decide)⟩

/-- C2: for a loaded document the cached line count equals the block count plus the total child
row count, and GetLineNumberModelIndex maps the line numbers 0..count-1 to exactly the flattened
document: the image list equals the canonical header/child enumeration, has no duplicates, and an
index is hit by some line number precisely when it designates an existing block header or child
row — so every header and every child row is covered exactly once.  (The single size hypothesis
says the line count fits in a 32-bit int, ruling out uint32 truncation in the stored pairs.) -/
theorem claim_C2 (bs : List Block)
    (h : (lineNumberCorrespondingIndices bs).length < 2 ^ 31) :
    getLineCount bs = bs.length + (bs.map (fun b => b.instructionLines.length)).sum ∧
      (List.range (getLineCount bs)).map
          (fun ln : Nat => getLineNumberModelIndex bs (ln : Int)) = flattenedIndices bs ∧
      ((List.range (getLineCount bs)).map
          (fun ln : Nat => getLineNumberModelIndex bs (ln : Int))).Nodup ∧
      (∀ x : ModelIdx,
        (∃ ln, ln ∈ List.range (getLineCount bs) ∧
            getLineNumberModelIndex bs (ln : Int) = x) ↔ validLineIdx bs x) := by
  have hsmall : bs.length < 2 ^ 31 := lt_of_le_of_lt (blocks_length_le_lineList bs) h
  have hrows : ∀ b ∈ bs, b.instructionLines.length < 2 ^ 31 :=
    fun b hb => lt_of_le_of_lt (rows_length_le_lineList bs b hb) h
  have hdec := lineListAux_decode bs hsmall hrows bs 0 (by rw [List.drop_zero])
  have hmap : (List.range (getLineCount bs)).map
      (fun ln : Nat => getLineNumberModelIndex bs (ln : Int)) = flattenedIndices bs := by
    rw [show getLineCount bs = (lineNumberCorrespondingIndices bs).length from rfl,
      map_range_decode]
    exact hdec
  refine ⟨lineList_length bs, hmap, ?_, ?_⟩
  · rw [hmap]
    exact flattenedIndices_nodup bs
  · intro x
    constructor
    · rintro ⟨ln, hln, hx⟩
      have hxmem : x ∈ flattenedIndices bs := by
        rw [← hmap]
        exact List.mem_map.mpr ⟨ln, hln, hx⟩
      exact (flattenedIndices_mem bs x).mp hxmem
    · intro hv
      have hxmem : x ∈ (List.range (getLineCount bs)).map
          (fun ln : Nat => getLineNumberModelIndex bs (ln : Int)) := by
        rw [hmap]
        exact (flattenedIndices_mem bs x).mpr hv
      rcases List.mem_map.mp hxmem with ⟨ln, hln, hx⟩
      exact ⟨ln, hln, hx⟩

theorem claim_C2_witness :
    (lineNumberCorrespondingIndices c2Doc).length < 2 ^ 31 ∧
      (getLineCount c2Doc =
          c2Doc.length + (c2Doc.map (fun b => b.instructionLines.length)).sum ∧
        (List.range (getLineCount c2Doc)).map
            (fun ln : Nat => getLineNumberModelIndex c2Doc (ln : Int)) =
          flattenedIndices c2Doc ∧
        ((List.range (getLineCount c2Doc)).map
            (fun ln : Nat => getLineNumberModelIndex c2Doc (ln : Int))).Nodup ∧
        (∀ x : ModelIdx,
          (∃ ln, ln ∈ List.range (getLineCount c2Doc) ∧
              getLineNumberModelIndex c2Doc (ln : Int) = x) ↔ validLineIdx c2Doc x)) :=
  ⟨by decide, claim_C2 c2Doc (by decide)⟩

/-- C4: inside any non-branch instruction, every operand sub-token of the shape -?s[0-9]+ (an
optional minus, the letter s, then one or more digits) classifies as a selectable scalar-register
token — never a constant, the register patterns being tried first — with end_register_index at
the absent value -1 and start_register_index equal to the integer parsed from the digits. -/
theorem claim_C4 (op_code : String) (operands : List String) (w : Rat)
    (gi ti : Nat) (tf : String × TokenType × Int × Int × Bool)
    (neg : Bool) (ds : List Char)
    (hnotbr : isBranchOpcode op_code = false)
    (hne : ds ≠ []) (hdig : ds.all isDigitChar = true)
    (htf : tokenFieldsAt (parseSelectableTokens op_code operands w).2 gi ti = some tf)
    (htext : tf.1 = String.mk ((cond neg ['-'] []) ++ 's' :: ds)) :
    tf = (String.mk ((cond neg ['-'] []) ++ 's' :: ds), TokenType.kScalarRegisterType,
      (digitsToNat ds : Int), -1, true) := by
  rcases (tokenFieldsAt_parse op_code operands w gi ti tf).mp htf with
    ⟨operand, piece, hop, hpiece, htfeq⟩
  rw [hnotbr] at htfeq
  simp only [Bool.false_eq_true, if_false] at htfeq
  have htext' : String.mk piece = String.mk ((cond neg ['-'] []) ++ 's' :: ds) := by
    rw [← classify_token_text (String.mk piece)]
    show (tokFields (classifyNonBranchToken (String.mk piece))).1 = _
    rw [← htfeq]
    exact htext
  have hpieceq : piece = (cond neg ['-'] []) ++ 's' :: ds := by
    injection htext'
  rw [htfeq, hpieceq, classify_scalar_simple neg ds hne hdig]

theorem claim_C4_witness :
    isBranchOpcode "v_mov" = false ∧
      tokenFieldsAt (parseSelectableTokens "v_mov" ["-s5"] 0).2 0 0 =
        some ("-s5", TokenType.kScalarRegisterType, 5, -1, true) ∧
      ("-s5", TokenType.kScalarRegisterType, (5 : Int), (-1 : Int), true) =
        (String.mk ((cond true ['-'] []) ++ 's' :: ['5']), TokenType.kScalarRegisterType,
          (digitsToNat ['5'] : Int), -1, true) :=
  ⟨by decide, by decide,
    claim_C4 "v_mov" ["-s5"] 0 0 0 ("-s5", TokenType.kScalarRegisterType, 5, -1, true)
      true ['5'] (by decide) (by decide) (by decide) (by decide) (by decide)⟩

/-- C5: inside any non-branch instruction, every operand sub-token of the shape s[d+:d+]
classifies as a selectable scalar-register token whose start_register_index and
end_register_index are exactly the two integers parsed from inside the brackets — for every such
input, including ones whose first bound exceeds the second: no clamping, no swapping and no
failure. -/
theorem rangeTokenFields (op_code : String) (operands : List String) (w : Rat)
    (gi ti : Nat) (tf : String × TokenType × Int × Int × Bool)
    (ds1 ds2 : List Char)
    (hnotbr : isBranchOpcode op_code = false)
    (h1 : ds1 ≠ []) (h2 : ds2 ≠ [])
    (hd1 : ds1.all isDigitChar = true) (hd2 : ds2.all isDigitChar = true)
    (htf : tokenFieldsAt (parseSelectableTokens op_code operands w).2 gi ti = some tf)
    (htext : tf.1 = String.mk ('s' :: '[' :: (ds1 ++ ':' :: (ds2 ++ [']'])))) :
    tf = (String.mk ('s' :: '[' :: (ds1 ++ ':' :: (ds2 ++ [']']))),
      TokenType.kScalarRegisterType, (digitsToNat ds1 : Int), (digitsToNat ds2 : Int),
      true) := by
  rcases (tokenFieldsAt_parse op_code operands w gi ti tf).mp htf with
    ⟨operand, piece, hop, hpiece, htfeq⟩
  rw [hnotbr] at htfeq
  simp only [Bool.false_eq_true, if_false] at htfeq
  have htext' : String.mk piece = String.mk ('s' :: '[' :: (ds1 ++ ':' :: (ds2 ++ [']']))) := by
    rw [← classify_token_text (String.mk piece)]
    show (tokFields (classifyNonBranchToken (String.mk piece))).1 = _
    rw [← htfeq]
    exact htext
  have hpieceq : piece = 's' :: '[' :: (ds1 ++ ':' :: (ds2 ++ [']'])) := by
    injection htext'
  rw [htfeq, hpieceq, classify_range_s ds1 ds2 h1 h2 hd1 hd2]

theorem claim_C5 (op_code : String) (operands : List String) (w : Rat)
    (gi ti : Nat) (tf : String × TokenType × Int × Int × Bool)
    (ds1 ds2 : List Char)
    (hnotbr : isBranchOpcode op_code = false)
    (h1 : ds1 ≠ []) (h2 : ds2 ≠ [])
    (hd1 : ds1.all isDigitChar = true) (hd2 : ds2.all isDigitChar = true)
    (htf : tokenFieldsAt (parseSelectableTokens op_code operands w).2 gi ti = some tf)
    (htext : tf.1 = String.mk ('s' :: '[' :: (ds1 ++ ':' :: (ds2 ++ [']'])))) :
    tf = (String.mk ('s' :: '[' :: (ds1 ++ ':' :: (ds2 ++ [']']))),
      TokenType.kScalarRegisterType, (digitsToNat ds1 : Int), (digitsToNat ds2 : Int),
      true) :=
  rangeTokenFields op_code operands w gi ti tf ds1 ds2 hnotbr h1 h2 hd1 hd2 htf htext

theorem claim_C5_witness :
    isBranchOpcode "v_mov" = false ∧
      tokenFieldsAt (parseSelectableTokens "v_mov" ["s[7:3]"] 0).2 0 0 =
        some ("s[7:3]", TokenType.kScalarRegisterType, 7, 3, true) ∧
      ("s[7:3]", TokenType.kScalarRegisterType, (7 : Int), (3 : Int), true) =
        (String.mk ('s' :: '[' :: (['7'] ++ ':' :: (['3'] ++ [']']))),
          TokenType.kScalarRegisterType, (digitsToNat ['7'] : Int),
          (digitsToNat ['3'] : Int), true) :=
  ⟨by decide, by decide,
    claim_C5 "v_mov" ["s[7:3]"] 0 0 0 ("s[7:3]", TokenType.kScalarRegisterType, 7, 3, true)
      ['7'] ['3'] (by decide) (by decide) (by decide) (by decide) (by decide)
      (by decide) (by decide)⟩

/-- C6 counterexample: classification of the operand sub-token "s[7:3]" (inside the non-branch
instruction "v_mov") produces a token whose end_register_index 3 is present (not -1) yet smaller
than its start_register_index 7 — refuting the invariant that a present end_register_index is
always ≥ start_register_index. -/
theorem claim_C6_counterexample :
    tokenFieldsAt (parseSelectableTokens "v_mov" ["s[7:3]"] 0).2 0 0 =
        some ("s[7:3]", TokenType.kScalarRegisterType, 7, 3, true) ∧
      (3 : Int) ≠ -1 ∧ (3 : Int) < 7 := by
  refine ⟨by decide, by decide, by decide⟩

/-- C6 (amended): for a register-range operand sub-token s[a:b] of a non-branch instruction,
end_register_index is the literal second parsed integer and start_register_index the literal
first one, so end ≥ start holds exactly when the first written bound is at most the second; the
classifier performs no clamping or swapping, and inputs with a > b yield end < start. -/
theorem claim_C6 (op_code : String) (operands : List String) (w : Rat)
    (gi ti : Nat) (tf : String × TokenType × Int × Int × Bool)
    (ds1 ds2 : List Char)
    (hnotbr : isBranchOpcode op_code = false)
    (h1 : ds1 ≠ []) (h2 : ds2 ≠ [])
    (hd1 : ds1.all isDigitChar = true) (hd2 : ds2.all isDigitChar = true)
    (htf : tokenFieldsAt (parseSelectableTokens op_code operands w).2 gi ti = some tf)
    (htext : tf.1 = String.mk ('s' :: '[' :: (ds1 ++ ':' :: (ds2 ++ [']'])))) :
    tf.2.2.2.1 = (digitsToNat ds2 : Int) ∧ tf.2.2.1 = (digitsToNat ds1 : Int) ∧
      (tf.2.2.1 ≤ tf.2.2.2.1 ↔ digitsToNat ds1 ≤ digitsToNat ds2) := by
  have heq := rangeTokenFields op_code operands w gi ti tf ds1 ds2 hnotbr h1 h2 hd1 hd2 htf htext
  rw [heq]
  refine ⟨rfl, rfl, ?_⟩
  exact Int.ofNat_le

theorem claim_C6_witness :
    isBranchOpcode "v_mov" = false ∧
      tokenFieldsAt (parseSelectableTokens "v_mov" ["s[2:5]"] 0).2 0 0 =
        some ("s[2:5]", TokenType.kScalarRegisterType, 2, 5, true) ∧
      (("s[2:5]", TokenType.kScalarRegisterType, (2 : Int), (5 : Int), true).2.2.2.1 =
          (digitsToNat ['5'] : Int) ∧
        ("s[2:5]", TokenType.kScalarRegisterType, (2 : Int), (5 : Int), true).2.2.1 =
          (digitsToNat ['2'] : Int) ∧
        (("s[2:5]", TokenType.kScalarRegisterType, (2 : Int), (5 : Int), true).2.2.1 ≤
            ("s[2:5]", TokenType.kScalarRegisterType, (2 : Int), (5 : Int), true).2.2.2.1 ↔
          digitsToNat ['2'] ≤ digitsToNat ['5'])) :=
  ⟨by decide, by decide,
    claim_C6 "v_mov" ["s[2:5]"] 0 0 0 ("s[2:5]", TokenType.kScalarRegisterType, 2, 5, true)
      ['2'] ['5'] (by decide) (by decide) (by decide) (by decide) (by decide)
      (by decide) (by decide)⟩

/-- C10 (implicit): branch detection is substring containment, not a prefix test — whenever the
opcode text contains "s_branch" or "s_cbranch_" anywhere (e.g. "xs_branchy"), the opcode counts
as a branch, token classification gives every parsed operand sub-token the branch-target-label
type with is_selectable false (never a register or constant classification), and any instruction
row built from the parsed opcode token is treated as a branch candidate by the resolution
pass. -/
theorem claim_C10 (op_code : String) (operands : List String) (w : Rat)
    (hsub : strFind op_code kUnconditionalBranchString = true ∨
      strFind op_code kConditionalBranchString = true) :
    isBranchOpcode op_code = true ∧
      (∀ gi ti tf, tokenFieldsAt (parseSelectableTokens op_code operands w).2 gi ti = some tf →
        tf.2.1 = TokenType.kBranchLabelType ∧ tf.2.2.2.2 = false) ∧
      (∀ ln groups pc bin en,
        rowIsBranch (Row.instruction ln (parseSelectableTokens op_code operands w).1
          groups pc bin en) = true) := by
  have hbr : isBranchOpcode op_code = true := by
    unfold isBranchOpcode
    rcases hsub with hs | hs <;> rw [hs] <;> simp
  refine ⟨hbr, ?_, ?_⟩
  · intro gi ti tf htf
    rcases (tokenFieldsAt_parse op_code operands w gi ti tf).mp htf with
      ⟨operand, piece, hop, hpiece, htfeq⟩
    rw [hbr] at htfeq
    simp only [if_true] at htfeq
    rw [htfeq]
    exact ⟨rfl, rfl⟩
  · intro ln groups pc bin en
    show isBranchOpcode (parseSelectableTokens op_code operands w).1.token_text = true
    exact hbr

theorem claim_C10_witness :
    (strFind "xs_branchy" kUnconditionalBranchString = true ∨
        strFind "xs_branchy" kConditionalBranchString = true) ∧
      (isBranchOpcode "xs_branchy" = true ∧
        (∀ gi ti tf,
          tokenFieldsAt (parseSelectableTokens "xs_branchy" ["label0"] 0).2 gi ti = some tf →
            tf.2.1 = TokenType.kBranchLabelType ∧ tf.2.2.2.2 = false) ∧
        (∀ ln groups pc bin en,
          rowIsBranch (Row.instruction ln (parseSelectableTokens "xs_branchy" ["label0"] 0).1
            groups pc bin en) = true)) :=
  ⟨Or.inl (by decide), claim_C10 "xs_branchy" ["label0"] 0 (Or.inl (by decide))⟩

/-- C7: duplicate label text lets the later block win silently — if blocks i < j both carry the
label text L, no other block does, and the code block row (bi, ii) is a branch instruction whose
first operand token text is L, then on a well-positioned document the resolution pass adds
(bi, ii) to block j's mapped-branch-instruction list, resolves the branch token's target index
to j, and adds nothing to block i's list (and, the pass being total, no error is raised). -/
theorem claim_C7 (bs : List Block) (i j bi ii : Nat) (L : String)
    (hwp : wellPositioned bs = true)
    (hij : i < j)
    (hlabi : labelTextAt? bs i = some L)
    (hlabj : labelTextAt? bs j = some L)
    (huniq : ∀ k, k < bs.length → labelTextAt? bs k = some L → k = i ∨ k = j)
    (hcode : isCodeAt bs bi = true)
    (hbr : rowIsBranchAt bs bi ii = true)
    (hop : firstOperandText? bs bi ii = some L) :
    (bi, ii) ∈ getMapped (mapBlocksToBranchInstructions bs) j ∧
      firstOperandTarget? (mapBlocksToBranchInstructions bs) bi ii = some (j : Int) ∧
      (bi, ii) ∉ getMapped (mapBlocksToBranchInstructions bs) i := by
  have hoptk : ∃ tk0, getFirstOperandToken? bs bi ii = some tk0 ∧ tk0.token_text = L := by
    unfold firstOperandText? at hop
    cases htk : getFirstOperandToken? bs bi ii with
    | none => rw [htk] at hop; exact Option.noConfusion hop
    | some tk0 =>
      rw [htk] at hop
      simp only [Option.map_some'] at hop
      exact ⟨tk0, rfl, Option.some.inj hop⟩
  rcases hoptk with ⟨tk0, htk, htext⟩
  rcases firstOperand_shape bs bi ii tk0 htk with ⟨ln, op, tks, gs, pc, bin, en, hrow⟩
  have hbrop : isBranchOpcode op.token_text = true := by
    unfold rowIsBranchAt at hbr
    rw [hrow] at hbr
    simpa [rowIsBranch] using hbr
  have hbilen : bi < bs.length := (getRow?_some_shape bs bi ii _ hrow).1
  have hj' : ∃ bj, bs.get? j = some bj ∧ bj.labelText? = some L := by
    unfold labelTextAt? at hlabj
    cases hg : bs.get? j with
    | none => rw [hg] at hlabj; exact Option.noConfusion hlabj
    | some bj => rw [hg] at hlabj; exact ⟨bj, rfl, hlabj⟩
  rcases hj' with ⟨bj, hgj, hlabj'⟩
  rcases labelText?_eq_some bj L hlabj' with ⟨p, l, tok, rows, mp, hshape, htok⟩
  have hbjcode : bj.isCode = true := by rw [hshape]; rfl
  have hbjpos : bj.pos = (j : Int) := wellPositioned_pos bs j bj hwp hgj hbjcode
  have hcodej : isCodeAt bs j = true := by
    unfold isCodeAt
    rw [hgj]
    exact hbjcode
  have hlast : lastCodePos bs L = some (j : Int) := by
    have h0 := lastCodePos_last bs L j bj hgj hlabj' (by
      intro m b2 hm hb2 hlab2
      have hmlt : m < bs.length := (List.get?_eq_some.mp hb2).1
      have hm2 : labelTextAt? bs m = some L := by
        unfold labelTextAt?
        rw [hb2]
        exact hlab2
      rcases huniq m hmlt hm2 with h' | h' <;> omega)
    rw [hbjpos] at h0
    exact h0
  have hfind : mapFind (buildLabelMap (clearBranchInstructionMapping bs)) L = some (j : Int) := by
    rw [mapFind_buildLabelMap, lastCodePos_clear, hlast]
  have hrowhit : rowHitOf (buildLabelMap (clearBranchInstructionMapping bs))
      (clearBranchInstructionMapping bs) bi ii = some (j : Int) := by
    unfold rowHitOf
    rw [getRow?_clear, hrow]
    simp only [Option.some_bind, rowBranchTarget, hbrop, if_true, htext]
    exact hfind
  have hbsne : bs ≠ [] := by
    intro h0
    rw [h0] at hbilen
    exact absurd hbilen (by simp)
  have hmemhits : (bi, ii, (j : Int)) ∈ hits (buildLabelMap (clearBranchInstructionMapping bs))
      (clearBranchInstructionMapping bs) := by
    apply hits_mem_of_rowHit
    · rw [length_clear]; exact hbilen
    · rw [isCodeAt_clear]; exact hcode
    · have hrC : getRow? (clearBranchInstructionMapping bs) bi ii =
          some (Row.instruction ln op ((tk0 :: tks) :: gs) pc bin en) := by
        rw [getRow?_clear]; exact hrow
      exact (getRow?_some_shape _ bi ii _ hrC).2
    · exact hrowhit
  have hA := mapBlocks_eq_applyHits bs hbsne
  refine ⟨?_, ?_, ?_⟩
  · rw [hA, getMapped_applyHits, getMapped_clear, isCodeAt_clear, if_pos hcodej,
      List.nil_append]
    apply List.mem_map.mpr
    refine ⟨(bi, ii, (j : Int)), List.mem_filter.mpr ⟨hmemhits, by simp⟩, rfl⟩
  · have hrowM : getRow? (mapBlocksToBranchInstructions bs) bi ii =
        some (Row.instruction ln op
          (({ tk0 with start_register_index := (j : Int) } :: tks) :: gs) pc bin en) := by
      rw [hA, getRow?_applyHits_mem _ _ bi ii (j : Int) (hits_pairs_nodup _ _) hmemhits,
        getRow?_clear, hrow]
      rfl
    unfold firstOperandTarget? getFirstOperandToken?
    rw [hrowM]
    rfl
  · intro hmem'
    rw [hA, getMapped_applyHits, getMapped_clear, isCodeAt_clear, List.nil_append] at hmem'
    by_cases hci : isCodeAt bs i = true
    · rw [if_pos hci] at hmem'
      rcases List.mem_map.mp hmem' with ⟨h, hhf, hpr⟩
      have hh := List.mem_filter.mp hhf
      have hpr1 : h.1 = bi := congrArg Prod.fst hpr
      have hpr2 : h.2.1 = ii := congrArg Prod.snd hpr
      have hsome := hits_pair_isSome _ _ h.1 h.2.1 h.2.2 hh.1
      rw [hpr1, hpr2, hrowhit] at hsome
      have hji : (i : Int) = h.2.2 := of_decide_eq_true hh.2
      have : h.2.2 = (j : Int) := (Option.some.inj hsome).symm
      rw [this] at hji
      have : i = j := by omega
      omega
    · rw [if_neg hci] at hmem'
      exact absurd hmem' (List.not_mem_nil _)

theorem claim_C7_witness :
    wellPositioned c7Doc = true ∧ 0 < 1 ∧
      labelTextAt? c7Doc 0 = some "dup" ∧ labelTextAt? c7Doc 1 = some "dup" ∧
      (∀ k, k < c7Doc.length → labelTextAt? c7Doc k = some "dup" → k = 0 ∨ k = 1) ∧
      isCodeAt c7Doc 2 = true ∧ rowIsBranchAt c7Doc 2 0 = true ∧
      firstOperandText? c7Doc 2 0 = some "dup" ∧
      ((2, 0) ∈ getMapped (mapBlocksToBranchInstructions c7Doc) 1 ∧
        firstOperandTarget? (mapBlocksToBranchInstructions c7Doc) 2 0 = some (1 : Int) ∧
        (2, 0) ∉ getMapped (mapBlocksToBranchInstructions c7Doc) 0) :=
  ⟨by decide, by decide, by decide, by decide, by decide, by decide, by decide, by decide,
    claim_C7 c7Doc 0 1 2 0 "dup" (by decide) (by decide) (by decide) (by decide) (by decide)
      (by decide) (by decide) (by decide)⟩

/-- C8: an unresolved branch is a no-op and no error — when no block label matches the branch
row's first operand token text L, the resolution pass produces exactly the per-block
mapped-branch-instruction lists it would produce with that branch row replaced by an inert
comment (the unmatched branch adds an entry nowhere), the branch token's target index stays at
the absent sentinel -1, and the kBranchIndexRole query for that row answers the empty list. -/
theorem claim_C8 (bs : List Block) (bi ii : Nat) (L : String)
    (hno : ∀ k, k < bs.length → labelTextAt? bs k ≠ some L)
    (hbr : rowIsBranchAt bs bi ii = true)
    (hop : firstOperandText? bs bi ii = some L)
    (htgt : firstOperandTarget? bs bi ii = some (-1)) :
    (∀ jj, getMapped (mapBlocksToBranchInstructions bs) jj =
        getMapped (mapBlocksToBranchInstructions (eraseRowToComment bs bi ii)) jj) ∧
      (∀ jj, (bi, ii) ∉ getMapped (mapBlocksToBranchInstructions bs) jj) ∧
      firstOperandTarget? (mapBlocksToBranchInstructions bs) bi ii = some (-1) ∧
      branchIndexRoleOperands (mapBlocksToBranchInstructions bs) bi ii = [] := by
  have hoptk : ∃ tk0, getFirstOperandToken? bs bi ii = some tk0 ∧ tk0.token_text = L := by
    unfold firstOperandText? at hop
    cases htk : getFirstOperandToken? bs bi ii with
    | none => rw [htk] at hop; exact Option.noConfusion hop
    | some tk0 =>
      rw [htk] at hop
      simp only [Option.map_some'] at hop
      exact ⟨tk0, rfl, Option.some.inj hop⟩
  rcases hoptk with ⟨tk0, htk, htext⟩
  have htgt0 : tk0.start_register_index = -1 := by
    unfold firstOperandTarget? at htgt
    rw [htk] at htgt
    simp only [Option.map_some'] at htgt
    exact Option.some.inj htgt
  rcases firstOperand_shape bs bi ii tk0 htk with ⟨ln, op, tks, gs, pc, bin, en, hrow⟩
  have hbrop : isBranchOpcode op.token_text = true := by
    unfold rowIsBranchAt at hbr
    rw [hrow] at hbr
    simpa [rowIsBranch] using hbr
  have hbilen : bi < bs.length := (getRow?_some_shape bs bi ii _ hrow).1
  have hbsne : bs ≠ [] := by
    intro h0
    rw [h0] at hbilen
    exact absurd hbilen (by simp)
  have hnone : lastCodePos bs L = none := by
    apply lastCodePos_none
    intro b hb hlab2
    rcases List.get?_of_mem hb with ⟨m, hm⟩
    have hmlt : m < bs.length := (List.get?_eq_some.mp hm).1
    exact hno m hmlt (by unfold labelTextAt?; rw [hm]; exact hlab2) 
  have hfindnone : mapFind (buildLabelMap (clearBranchInstructionMapping bs)) L = none := by
    rw [mapFind_buildLabelMap, lastCodePos_clear, hnone]
  have hrowhit : rowHitOf (buildLabelMap (clearBranchInstructionMapping bs))
      (clearBranchInstructionMapping bs) bi ii = none := by
    unfold rowHitOf
    rw [getRow?_clear, hrow]
    simp only [Option.some_bind, rowBranchTarget, hbrop, if_true, htext]
    exact hfindnone
  have hnotmem := hits_notMem_of_rowHit_none _ _ bi ii hrowhit
  have hA := mapBlocks_eq_applyHits bs hbsne
  have hrowM : getRow? (mapBlocksToBranchInstructions bs) bi ii =
      some (Row.instruction ln op ((tk0 :: tks) :: gs) pc bin en) := by
    rw [hA, getRow?_applyHits_notMem _ _ bi ii hnotmem, getRow?_clear]
    exact hrow
  refine ⟨?_, ?_, ?_, ?_⟩
  · have hEne : eraseRowToComment bs bi ii ≠ [] := by
      intro h0
      have hl : (eraseRowToComment bs bi ii).length = bs.length := by
        unfold eraseRowToComment
        exact modifyIdx_length _ _ bs
      rw [h0] at hl
      have : bs.length = 0 := hl.symm
      omega
    have hCE : clearBranchInstructionMapping (eraseRowToComment bs bi ii) =
        modifyIdx (blockModifyRow (fun _ => Row.comment 0 "") ii) bi
          (clearBranchInstructionMapping bs) := by
      unfold eraseRowToComment clearBranchInstructionMapping
      exact map_modifyIdx_comm (fun b => clearMapped_blockModifyRow _ ii b) bi bs
    have hlmE : buildLabelMap (clearBranchInstructionMapping (eraseRowToComment bs bi ii)) =
        buildLabelMap (clearBranchInstructionMapping bs) := by
      rw [hCE]
      unfold buildLabelMap
      exact foldl_modifyIdx_invariant labelMapStep _ (fun m b => by cases b <;> rfl) _ bi []
    have hrbt : rowBranchTarget (buildLabelMap (clearBranchInstructionMapping bs))
        (Row.instruction ln op ((tk0 :: tks) :: gs) pc bin en) = none := by
      have h1 := hrowhit
      unfold rowHitOf at h1
      rw [getRow?_clear, hrow] at h1
      simpa using h1
    have hhitsE : hits (buildLabelMap (clearBranchInstructionMapping (eraseRowToComment bs bi ii)))
        (clearBranchInstructionMapping (eraseRowToComment bs bi ii)) =
        hits (buildLabelMap (clearBranchInstructionMapping bs))
          (clearBranchInstructionMapping bs) := by
      rw [hlmE, hCE]
      apply hits_ext
      · exact modifyIdx_length _ _ _
      · intro bi'
        exact blockMetaAt_modifyRow _ _ _ _ bi'
      · intro bi' ii'
        unfold rowHitOf
        rw [getRow?_modifyIdx_modifyRow]
        by_cases hp : bi' = bi ∧ ii' = ii
        · rcases hp with ⟨rfl, rfl⟩
          rw [if_pos ⟨rfl, rfl⟩]
          have hrC : getRow? (clearBranchInstructionMapping bs) bi' ii' =
              some (Row.instruction ln op ((tk0 :: tks) :: gs) pc bin en) := by
            rw [getRow?_clear]
            exact hrow
          rw [hrC]
          simp only [Option.map_some', Option.some_bind]
          rw [hrbt]
          rfl
        · rw [if_neg hp]
    have hcodeE : ∀ jj, isCodeAt (eraseRowToComment bs bi ii) jj = isCodeAt bs jj := by
      intro jj
      unfold eraseRowToComment
      exact isCodeAt_modifyIdx _ (fun b => isCode_blockModifyRow _ _ b) bi bs jj
    intro jj
    rw [hA, mapBlocks_eq_applyHits _ hEne, hhitsE, getMapped_applyHits, getMapped_applyHits,
      getMapped_clear, getMapped_clear, isCodeAt_clear, isCodeAt_clear, hcodeE jj]
  · intro jj hmem'
    rw [hA, getMapped_applyHits, getMapped_clear, isCodeAt_clear, List.nil_append] at hmem'
    by_cases hci : isCodeAt bs jj = true
    · rw [if_pos hci] at hmem'
      rcases List.mem_map.mp hmem' with ⟨h, hhf, hpr⟩
      have hh := List.mem_filter.mp hhf
      have hpr1 : h.1 = bi := congrArg Prod.fst hpr
      have hpr2 : h.2.1 = ii := congrArg Prod.snd hpr
      have hsome := hits_pair_isSome _ _ h.1 h.2.1 h.2.2 hh.1
      rw [hpr1, hpr2, hrowhit] at hsome
      exact Option.noConfusion hsome
    · rw [if_neg hci] at hmem'
      exact absurd hmem' (List.not_mem_nil _)
  · unfold firstOperandTarget? getFirstOperandToken?
    rw [hrowM]
    simp only [Option.map_some']
    rw [htgt0]
  · simp only [branchIndexRoleOperands, hrowM]
    rw [if_neg (fun hcond => hcond.2 htgt0)]

theorem claim_C8_witness :
    (∀ k, k < c8Doc.length → labelTextAt? c8Doc k ≠ some "label_missing") ∧
      rowIsBranchAt c8Doc 0 0 = true ∧
      firstOperandText? c8Doc 0 0 = some "label_missing" ∧
      firstOperandTarget? c8Doc 0 0 = some (-1) ∧
      ((∀ jj, getMapped (mapBlocksToBranchInstructions c8Doc) jj =
          getMapped (mapBlocksToBranchInstructions (eraseRowToComment c8Doc 0 0)) jj) ∧
        (∀ jj, (0, 0) ∉ getMapped (mapBlocksToBranchInstructions c8Doc) jj) ∧
        firstOperandTarget? (mapBlocksToBranchInstructions c8Doc) 0 0 = some (-1) ∧
        branchIndexRoleOperands (mapBlocksToBranchInstructions c8Doc) 0 0 = []) :=
  ⟨by decide, by decide, by decide, by decide,
    claim_C8 c8Doc 0 0 "label_missing" (by decide) (by decide) (by decide) (by decide)⟩
